import Mathlib

/-!
Verification development for the `matching-engine` repository.

The Rust sources are shallowly embedded below: machine integers (`i64`,
`i128`) become `Int` with explicit range checks or wrapping where the source
performs a checked operation or an `as` cast, fallible code returns
`Option`/`Except` (a Rust panic is modelled as `none`), and the concurrent
atomics of the source are modelled by their single-threaded semantics (the
claims under verification explicitly condition on no interleaving).
Strings are modelled as `List Char`.
-/

namespace MatchingEngine

/-- Smallest `i64` value, `-(2^63)`. -/
def i64Min : Int := -(2 ^ 63)

/-- Largest `i64` value, `2^63 - 1`. -/
def i64Max : Int := 2 ^ 63 - 1

/-- Two's-complement wrap into the `i64` range; models a Rust `as i64` cast
of a wider integer. -/
def wrapI64 (x : Int) : Int := (x + 2 ^ 63) % 2 ^ 64 - 2 ^ 63

/-- Errors of the numeric substrate (`src/numeric/errors.rs`). -/
inductive NumericError
  | overflow
  | underflow
  | divisionByZero
  | precisionLoss
  | invalidInput
  | scaleMismatch
deriving DecidableEq, Repr

/-- Scale factor `10^D` of `FixedDecimal<D>` (`pow10` in
`src/numeric/fixed_decimal.rs`). -/
def scaleOf (D : Nat) : Int := (10 : Int) ^ D

/-- Half scale `pow10(D) / 2` used for rounding (`HALF_SCALE`). -/
def halfScaleOf (D : Nat) : Int := (scaleOf D).tdiv 2

/-- Embedding of `FixedDecimal::<D>::checked_mul` on raw scaled values
(`src/numeric/fixed_decimal.rs`, lines 222-243).  The Rust code computes the
product in `i128` (exact for two `i64` factors, hence plain `Int` here),
adds or subtracts `HALF_SCALE` according to the sign test `product >= 0`,
divides by `SCALE` (Rust `i128` division truncates toward zero, `Int.tdiv`),
and range-checks the result against `i64`. -/
def checked_mul (D : Nat) (a b : Int) : Except NumericError Int :=
  let scale := scaleOf D
  let halfScale := halfScaleOf D
  let product := a * b
  let rounded := if 0 ≤ product then product + halfScale else product - halfScale
  let result := rounded.tdiv scale
  if i64Max < result then .error .overflow
  else if result < i64Min then .error .underflow
  else .ok result

/-- Embedding of `i64::checked_add` on mathematical integers: the check that
the exact sum stays in the `i64` range is precisely Rust's overflow check
(given in-range operands). -/
def i64CheckedAdd (a b : Int) : Option Int :=
  if i64Min ≤ a + b ∧ a + b ≤ i64Max then some (a + b) else none

/-- Embedding of `i64::checked_sub`. -/
def i64CheckedSub (a b : Int) : Option Int :=
  if i64Min ≤ a - b ∧ a - b ≤ i64Max then some (a - b) else none

/-- Embedding of `i64::checked_mul`. -/
def i64CheckedMul (a b : Int) : Option Int :=
  if i64Min ≤ a * b ∧ a * b ≤ i64Max then some (a * b) else none

/-- Embedding of `FixedDecimal::<D>::from_parts`
(`src/numeric/fixed_decimal.rs`, lines 106-126).  `fraction` is the
(nonnegative) `u64` fractional part; the sign of the fraction is taken from
the integer part. -/
def from_parts (D : Nat) (integer : Int) (fraction : Nat) : Except NumericError Int :=
  if scaleOf D ≤ (fraction : Int) then .error .invalidInput
  else
    match i64CheckedMul integer (scaleOf D) with
    | none => .error .overflow
    | some intScaled =>
      let fracSigned : Int := if integer < 0 then -(fraction : Int) else (fraction : Int)
      match i64CheckedAdd intScaled fracSigned with
      | none => .error .overflow
      | some raw => .ok raw

theorem scaleOf_pos (D : Nat) : 0 < scaleOf D := pow_pos (by norm_num) D

theorem halfScaleOf_nonneg (D : Nat) : 0 ≤ halfScaleOf D :=
  Int.tdiv_nonneg (le_of_lt (scaleOf_pos D)) (by norm_num)

theorem halfScaleOf_lt_scaleOf (D : Nat) : halfScaleOf D < scaleOf D := by
  have hs := scaleOf_pos D
  have : (scaleOf D).tdiv 2 = scaleOf D / 2 :=
    Int.tdiv_eq_ediv (le_of_lt hs) (by norm_num)
  rw [halfScaleOf, this]
  exact Int.ediv_lt_of_lt_mul (by norm_num) (by linarith)

/-- The rounded quotient computed by `checked_mul` written the way the
specification states it: `sign(product) * (10^D / 2)` is added before the
truncating division. -/
theorem checked_mul_sign_form (D : Nat) (a b : Int) :
    checked_mul D a b =
      (let r := (a * b + (a * b).sign * halfScaleOf D).tdiv (scaleOf D)
       if i64Max < r then .error .overflow
       else if r < i64Min then .error .underflow
       else .ok r) := by
  show (let rounded := if 0 ≤ a * b then a * b + halfScaleOf D else a * b - halfScaleOf D
        let result := rounded.tdiv (scaleOf D)
        if i64Max < result then Except.error NumericError.overflow
        else if result < i64Min then Except.error NumericError.underflow
        else Except.ok result) = _
  simp only
  rcases lt_trichotomy (a * b) 0 with hneg | hzero | hpos
  · rw [if_neg (not_le.mpr hneg), Int.sign_eq_neg_one_of_neg hneg]
    ring_nf
  · rw [hzero, if_pos le_rfl, Int.sign_zero, zero_mul, zero_add, add_zero]
    have h0 : (halfScaleOf D).tdiv (scaleOf D) = 0 := by
      rw [Int.tdiv_eq_ediv (halfScaleOf_nonneg D) (le_of_lt (scaleOf_pos D))]
      exact Int.ediv_eq_zero_of_lt (halfScaleOf_nonneg D) (halfScaleOf_lt_scaleOf D)
    rw [h0, Int.zero_tdiv]
  · rw [if_pos (le_of_lt hpos), Int.sign_eq_one_of_pos hpos, one_mul]

theorem C9_helper_halfway_pos (D : Nat) (a b q : Int) (hq : 0 ≤ q)
    (heven : 2 * halfScaleOf D = scaleOf D)
    (hp : a * b = q * scaleOf D + halfScaleOf D) :
    (a * b + (a * b).sign * halfScaleOf D).tdiv (scaleOf D) = q + 1 := by
  have hs := scaleOf_pos D
  have hhalf : 0 < halfScaleOf D := by nlinarith
  have hpos : 0 < a * b := by nlinarith
  rw [Int.sign_eq_one_of_pos hpos, one_mul, hp]
  have : q * scaleOf D + halfScaleOf D + halfScaleOf D = (q + 1) * scaleOf D := by
    rw [add_mul, one_mul]
    nlinarith
  rw [this, Int.mul_tdiv_cancel _ (ne_of_gt hs)]

theorem C9_helper_halfway_neg (D : Nat) (a b q : Int) (hq : q ≤ 0)
    (heven : 2 * halfScaleOf D = scaleOf D)
    (hp : a * b = q * scaleOf D - halfScaleOf D) :
    (a * b + (a * b).sign * halfScaleOf D).tdiv (scaleOf D) = q - 1 := by
  have hs := scaleOf_pos D
  have hhalf : 0 < halfScaleOf D := by nlinarith
  have hneg : a * b < 0 := by nlinarith
  rw [Int.sign_eq_neg_one_of_neg hneg, neg_one_mul, hp]
  have : q * scaleOf D - halfScaleOf D + -halfScaleOf D = (q - 1) * scaleOf D := by
    rw [sub_mul, one_mul]
    nlinarith
  rw [this, Int.mul_tdiv_cancel _ (ne_of_gt hs)]

/-- C9: `checked_mul` computes the 128-bit product of the raw values, adds
`sign(product) * (10^D / 2)`, divides by `10^D` truncating toward zero, and
returns `Ok` of the result when it fits in `i64`, `Err(Overflow)` above
`i64::MAX`, `Err(Underflow)` below `i64::MIN`; a product exactly halfway
between two representable results rounds away from zero (stated for both
signs via the quotient of the rounding formula). -/
theorem C9_checked_mul_spec (D : Nat) (a b q : Int) :
    (checked_mul D a b =
      (let r := (a * b + (a * b).sign * halfScaleOf D).tdiv (scaleOf D)
       if i64Max < r then .error .overflow
       else if r < i64Min then .error .underflow
       else .ok r))
    ∧ (0 ≤ q → 2 * halfScaleOf D = scaleOf D →
        a * b = q * scaleOf D + halfScaleOf D →
        (a * b + (a * b).sign * halfScaleOf D).tdiv (scaleOf D) = q + 1)
    ∧ (q ≤ 0 → 2 * halfScaleOf D = scaleOf D →
        a * b = q * scaleOf D - halfScaleOf D →
        (a * b + (a * b).sign * halfScaleOf D).tdiv (scaleOf D) = q - 1) :=
  ⟨checked_mul_sign_form D a b,
   fun hq he hp => C9_helper_halfway_pos D a b q hq he hp,
   fun hq he hp => C9_helper_halfway_neg D a b q hq he hp⟩

/-- Witness for C9: at `D = 9`, raw values `a = 1`, `b = 1500000000`, the
product `1.5 * 10^9` is exactly halfway and rounds up to quotient `2`. -/
theorem C9_checked_mul_spec_witness :
    ((1 : Int) * 1500000000 + ((1 : Int) * 1500000000).sign * halfScaleOf 9).tdiv (scaleOf 9)
      = 1 + 1 :=
  (C9_checked_mul_spec 9 1 1500000000 1).2.1 (by norm_num) (by decide) (by decide)

/-! Formatting and parsing of `FixedDecimal` values.  Rust strings are
modelled as `List Char`. -/

/-- Decimal digit character for a value below ten. -/
def digitChar (n : Nat) : Char := Char.ofNat (48 + n)

/-- Structural helper for `natToRevDigits`: the first argument is fuel, kept
at least the number being rendered so that the recursion is structural (and
hence computable by kernel reduction). -/
def natToRevDigitsAux : Nat → Nat → List Char
  | 0, _ => []
  | fuel + 1, n =>
    if n = 0 then [] else digitChar (n % 10) :: natToRevDigitsAux fuel (n / 10)

/-- Decimal digits of a natural number, least significant first (the digit
loop of Rust's integer `Display`). -/
def natToRevDigits (n : Nat) : List Char := natToRevDigitsAux n n

/-- Decimal rendering of a natural number (Rust renders `0` as `"0"`). -/
def natDisplay (n : Nat) : List Char :=
  if n = 0 then [Char.ofNat 48] else (natToRevDigits n).reverse

/-- Rendering of an `i64` by Rust's `Display`: optional minus sign followed
by the decimal digits of the absolute value. -/
def intDisplay (i : Int) : List Char :=
  if i < 0 then Char.ofNat 45 :: natDisplay i.natAbs else natDisplay i.natAbs

/-- Left zero-padding to a given width: Rust's `{:0>width$}` format. -/
def pad0Left (w : Nat) (s : List Char) : List Char :=
  List.replicate (w - s.length) (Char.ofNat 48) ++ s

/-- Right zero-padding to a given width: Rust's `{:0<width$}` format. -/
def pad0Right (w : Nat) (s : List Char) : List Char :=
  s ++ List.replicate (w - s.length) (Char.ofNat 48)

/-- Embedding of the `Display` implementation of `FixedDecimal<D>`
(`src/numeric/fixed_decimal.rs`, lines 358-372): `integer_part` is the raw
value divided by `SCALE` (i64 division truncates toward zero), and
`fractional_part` is `(raw % SCALE).unsigned_abs()`. -/
def formatFD (D : Nat) (raw : Int) : List Char :=
  let intPart := raw.tdiv (scaleOf D)
  let fracPart : Nat := (raw.tmod (scaleOf D)).natAbs
  if D = 0 then intDisplay intPart
  else if raw < 0 ∧ intPart = 0 then
    Char.ofNat 45 :: Char.ofNat 48 :: Char.ofNat 46 :: pad0Left D (natDisplay fracPart)
  else intDisplay intPart ++ Char.ofNat 46 :: pad0Left D (natDisplay fracPart)

/-- Character is an ASCII decimal digit. -/
def isDigitChar (c : Char) : Bool := 48 ≤ c.toNat && c.toNat ≤ 57

/-- Numeric value of a digit character. -/
def digitVal (c : Char) : Nat := c.toNat - 48

/-- Value of a most-significant-first digit string. -/
def digitsToNat (s : List Char) : Nat := s.foldl (fun a c => a * 10 + digitVal c) 0

/-- All characters are decimal digits. -/
def allDigits (s : List Char) : Bool := s.all isDigitChar

/-- Embedding of Rust `str::parse::<u64>`: an optional leading `+` sign,
then one or more digits whose value fits in `u64`. -/
def parseU64 (s : List Char) : Option Nat :=
  let t := if s.head? = some (Char.ofNat 43) then s.tail else s
  if t ≠ [] ∧ allDigits t ∧ digitsToNat t < 2 ^ 64 then some (digitsToNat t) else none

/-- Embedding of Rust `str::parse::<i64>`: an optional sign, then one or
more digits; the value must fit in `i64` (Rust's checked accumulation fails
exactly when the mathematical value is out of range). -/
def parseI64 (s : List Char) : Option Int :=
  let sgn : Int := if s.head? = some (Char.ofNat 45) then -1 else 1
  let t := if s.head? = some (Char.ofNat 45) ∨ s.head? = some (Char.ofNat 43)
           then s.tail else s
  if t ≠ [] ∧ allDigits t then
    let v : Int := sgn * (digitsToNat t : Int)
    if i64Min ≤ v ∧ v ≤ i64Max then some v else none
  else none

/-- Embedding of Rust `str::trim`: drop whitespace from both ends. -/
def trimChars (s : List Char) : List Char :=
  ((s.dropWhile Char.isWhitespace).reverse.dropWhile Char.isWhitespace).reverse

/-- Split at the first `.` (Rust `s.find('.')` followed by slicing): the
part before the dot, and the part after it when a dot is present. -/
def splitDot : List Char → List Char × Option (List Char)
  | [] => ([], none)
  | c :: cs =>
    if c = Char.ofNat 46 then ([], some cs)
    else
      let p := splitDot cs
      (c :: p.1, p.2)

/-- Strip one leading minus sign (Rust `s.strip_prefix('-')` in `from_str`);
returns whether the sign was present together with the remainder. -/
def stripNeg (s : List Char) : Bool × List Char :=
  match s with
  | c :: r => if c = Char.ofNat 45 then (true, r) else (false, s)
  | [] => (false, s)

/-- Embedding of the `FromStr` implementation of `FixedDecimal<D>`
(`src/numeric/fixed_decimal.rs`, lines 437-487).  The negation at the end is
the `Neg` impl (`Self(-self.0)`), a plain `i64` negation, hence the
two's-complement wrap. -/
def from_str (D : Nat) (input : List Char) : Except NumericError Int :=
  let s := trimChars input
  if s = [] then .error .invalidInput
  else
    let p := stripNeg s
    let isNeg := p.1
    let q := splitDot p.2
    let intStr := q.1
    let fracStr := q.2
    let intVal? : Option Int := if intStr = [] then some 0 else parseI64 intStr
    match intVal? with
    | none => .error .invalidInput
    | some intVal =>
      let fracVal? : Except NumericError Nat :=
        match fracStr with
        | none => .ok 0
        | some f =>
          if f = [] then .ok 0
          else if D < f.length then .error .precisionLoss
          else
            match parseU64 (pad0Right D f) with
            | some v => .ok v
            | none => .error .invalidInput
      match fracVal? with
      | .error e => .error e
      | .ok fracVal =>
        match from_parts D intVal fracVal with
        | .error e => .error e
        | .ok raw => .ok (if isNeg then wrapI64 (-raw) else raw)

theorem digitChar_lt_ten_facts (d : Nat) (h : d < 10) :
    isDigitChar (digitChar d) = true ∧ digitVal (digitChar d) = d := by
  interval_cases d <;> exact ⟨by decide, by decide⟩

theorem isDigitChar_iff (c : Char) :
    isDigitChar c = true ↔ 48 ≤ c.toNat ∧ c.toNat ≤ 57 := by
  simp [isDigitChar, Bool.and_eq_true, decide_eq_true_eq]

theorem digitsToNat_foldl_acc (s : List Char) (a : Nat) :
    s.foldl (fun a c => a * 10 + digitVal c) a
      = a * 10 ^ s.length + digitsToNat s := by
  induction s generalizing a with
  | nil => simp [digitsToNat]
  | cons c t ih =>
    simp only [List.foldl_cons, List.length_cons, digitsToNat]
    rw [ih (a * 10 + digitVal c), ih (0 * 10 + digitVal c)]
    ring

theorem digitsToNat_append (xs ys : List Char) :
    digitsToNat (xs ++ ys) = digitsToNat xs * 10 ^ ys.length + digitsToNat ys := by
  unfold digitsToNat
  rw [List.foldl_append, digitsToNat_foldl_acc]
  rfl

theorem digitsToNat_append_singleton (xs : List Char) (c : Char) :
    digitsToNat (xs ++ [c]) = digitsToNat xs * 10 + digitVal c := by
  rw [digitsToNat_append]
  simp [digitsToNat, digitVal]

theorem digitsToNat_replicate_zero (k : Nat) :
    digitsToNat (List.replicate k (Char.ofNat 48)) = 0 := by
  induction k with
  | zero => rfl
  | succ j ih =>
    rw [List.replicate_succ]
    unfold digitsToNat at ih ⊢
    simpa [digitVal] using ih

theorem digitsToNat_pad0Left (w : Nat) (s : List Char) :
    digitsToNat (pad0Left w s) = digitsToNat s := by
  rw [pad0Left, digitsToNat_append, digitsToNat_replicate_zero, zero_mul, zero_add]

theorem natToRevDigitsAux_congr :
    ∀ (f1 f2 n : Nat), n ≤ f1 → n ≤ f2 →
      natToRevDigitsAux f1 n = natToRevDigitsAux f2 n := by
  intro f1
  induction f1 with
  | zero =>
    intro f2 n h1 h2
    interval_cases n
    cases f2 <;> simp [natToRevDigitsAux]
  | succ f ih =>
    intro f2 n h1 h2
    cases f2 with
    | zero =>
      interval_cases n
      simp [natToRevDigitsAux]
    | succ g =>
      by_cases hn : n = 0
      · subst hn
        simp [natToRevDigitsAux]
      · simp only [natToRevDigitsAux, if_neg hn]
        have hlt : n / 10 < n := Nat.div_lt_self (Nat.pos_of_ne_zero hn) (by norm_num)
        rw [ih g (n / 10) (by omega) (by omega)]

theorem natToRevDigits_zero : natToRevDigits 0 = [] := rfl

theorem natToRevDigits_eq (n : Nat) (h : n ≠ 0) :
    natToRevDigits n = digitChar (n % 10) :: natToRevDigits (n / 10) := by
  unfold natToRevDigits
  cases n with
  | zero => exact absurd rfl h
  | succ m =>
    simp only [natToRevDigitsAux, if_neg h]
    have hlt : (m + 1) / 10 < m + 1 := Nat.div_lt_self (Nat.succ_pos m) (by norm_num)
    rw [natToRevDigitsAux_congr m ((m + 1) / 10) ((m + 1) / 10) (by omega) le_rfl]

theorem natToRevDigits_spec (n : Nat) :
    (∀ c ∈ natToRevDigits n, isDigitChar c = true)
      ∧ digitsToNat (natToRevDigits n).reverse = n := by
  induction n using Nat.strong_induction_on with
  | _ n ih =>
    match n with
    | 0 => exact ⟨by simp [natToRevDigits_zero], by simp [natToRevDigits_zero, digitsToNat]⟩
    | m + 1 =>
      have hdiv : (m + 1) / 10 < m + 1 := Nat.div_lt_self (Nat.succ_pos m) (by norm_num)
      obtain ⟨ihd, ihv⟩ := ih _ hdiv
      have hmod : (m + 1) % 10 < 10 := Nat.mod_lt _ (by norm_num)
      have heq := natToRevDigits_eq (m + 1) (Nat.succ_ne_zero m)
      constructor
      · intro c hc
        rw [heq, List.mem_cons] at hc
        rcases hc with rfl | h
        · exact (digitChar_lt_ten_facts _ hmod).1
        · exact ihd c h
      · rw [heq, List.reverse_cons]
        rw [digitsToNat_append_singleton, ihv, (digitChar_lt_ten_facts _ hmod).2,
          mul_comm]
        exact Nat.div_add_mod (m + 1) 10

theorem natToRevDigits_length_le (k : Nat) :
    ∀ n : Nat, n < 10 ^ k → (natToRevDigits n).length ≤ k := by
  induction k with
  | zero =>
    intro n hn
    have : n = 0 := by omega
    subst this
    simp [natToRevDigits_zero]
  | succ j ih =>
    intro n hn
    match n with
    | 0 => simp [natToRevDigits_zero]
    | m + 1 =>
      rw [natToRevDigits_eq (m + 1) (Nat.succ_ne_zero m), List.length_cons]
      have : (m + 1) / 10 < 10 ^ j := by
        rw [Nat.div_lt_iff_lt_mul (by norm_num)]
        calc m + 1 < 10 ^ (j + 1) := hn
        _ = 10 ^ j * 10 := by ring
      exact Nat.succ_le_succ (ih _ this)

theorem natDisplay_spec (n : Nat) :
    (∀ c ∈ natDisplay n, isDigitChar c = true)
      ∧ digitsToNat (natDisplay n) = n ∧ natDisplay n ≠ [] := by
  unfold natDisplay
  by_cases h : n = 0
  · subst h
    exact ⟨by decide, by decide, by decide⟩
  · rw [if_neg h]
    refine ⟨?_, (natToRevDigits_spec n).2, ?_⟩
    · intro c hc
      exact (natToRevDigits_spec n).1 c (List.mem_reverse.mp hc)
    · intro he
      have := (natToRevDigits_spec n).2
      rw [he] at this
      exact h (by simpa [digitsToNat] using this.symm)

theorem natDisplay_length_le (n k : Nat) (hn : n < 10 ^ k) (hk : 1 ≤ k) :
    (natDisplay n).length ≤ k := by
  unfold natDisplay
  by_cases h : n = 0
  · simpa [h] using hk
  · rw [if_neg h, List.length_reverse]
    exact natToRevDigits_length_le k n hn

theorem digit_ne_char {c : Char} (h : isDigitChar c = true) (m : Nat) (hm : m < 48)
    (hv : (Char.ofNat m).toNat = m) : c ≠ Char.ofNat m := by
  intro he
  have h48 := ((isDigitChar_iff c).1 h).1
  rw [he, hv] at h48
  omega

theorem digit_not_ws {c : Char} (h : isDigitChar c = true) : c.isWhitespace = false := by
  have h48 := ((isDigitChar_iff c).1 h).1
  simp only [Char.isWhitespace, Bool.or_eq_false_iff, decide_eq_false_iff_not]
  refine ⟨⟨⟨?_, ?_⟩, ?_⟩, ?_⟩ <;>
    · intro he
      rw [he] at h48
      exact absurd h48 (by decide)

theorem dropWhile_eq_self_of_not (p : Char → Bool) (s : List Char)
    (h : ∀ c ∈ s, p c = false) : s.dropWhile p = s := by
  cases s with
  | nil => rfl
  | cons c t =>
    rw [List.dropWhile_cons, h c (List.mem_cons_self c t)]
    simp

theorem trimChars_eq_self (s : List Char) (h : ∀ c ∈ s, c.isWhitespace = false) :
    trimChars s = s := by
  unfold trimChars
  rw [dropWhile_eq_self_of_not _ s h]
  rw [dropWhile_eq_self_of_not _ s.reverse (fun c hc => h c (List.mem_reverse.mp hc))]
  exact List.reverse_reverse s

theorem splitDot_no_dot (xs : List Char) (h : ∀ c ∈ xs, c ≠ Char.ofNat 46) :
    splitDot xs = (xs, none) := by
  induction xs with
  | nil => rfl
  | cons c t ih =>
    rw [splitDot, if_neg (h c (List.mem_cons_self c t))]
    rw [ih (fun d hd => h d (List.mem_cons_of_mem c hd))]

theorem splitDot_append_dot (xs ys : List Char) (h : ∀ c ∈ xs, c ≠ Char.ofNat 46) :
    splitDot (xs ++ Char.ofNat 46 :: ys) = (xs, some ys) := by
  induction xs with
  | nil => simp [splitDot]
  | cons c t ih =>
    rw [List.cons_append, splitDot, if_neg (h c (List.mem_cons_self c t))]
    rw [ih (fun d hd => h d (List.mem_cons_of_mem c hd))]

theorem allDigits_of_forall (s : List Char) (h : ∀ c ∈ s, isDigitChar c = true) :
    allDigits s = true := by
  rw [allDigits, List.all_eq_true]
  exact h

theorem parseU64_digits (s : List Char) (h1 : s ≠ [])
    (h2 : ∀ c ∈ s, isDigitChar c = true) (h3 : digitsToNat s < 2 ^ 64) :
    parseU64 s = some (digitsToNat s) := by
  unfold parseU64
  have hhead : s.head? ≠ some (Char.ofNat 43) := by
    cases s with
    | nil => simp
    | cons c t =>
      simp only [List.head?_cons, Option.some.injEq, ne_eq]
      exact digit_ne_char (h2 c (List.mem_cons_self c t)) 43 (by norm_num) (by decide)
  rw [if_neg hhead]
  rw [if_pos ⟨h1, allDigits_of_forall s h2, h3⟩]

theorem parseI64_digits (s : List Char) (h1 : s ≠ [])
    (h2 : ∀ c ∈ s, isDigitChar c = true) (h3 : (digitsToNat s : Int) ≤ i64Max) :
    parseI64 s = some ((digitsToNat s : Int)) := by
  unfold parseI64
  have hm : s.head? ≠ some (Char.ofNat 45) := by
    cases s with
    | nil => simp
    | cons c t =>
      simp only [List.head?_cons, Option.some.injEq, ne_eq]
      exact digit_ne_char (h2 c (List.mem_cons_self c t)) 45 (by norm_num) (by decide)
  have hp : s.head? ≠ some (Char.ofNat 43) := by
    cases s with
    | nil => simp
    | cons c t =>
      simp only [List.head?_cons, Option.some.injEq, ne_eq]
      exact digit_ne_char (h2 c (List.mem_cons_self c t)) 43 (by norm_num) (by decide)
  rw [if_neg hm, if_neg (by simp [hm, hp] : ¬(s.head? = some (Char.ofNat 45)
    ∨ s.head? = some (Char.ofNat 43)))]
  rw [if_pos ⟨h1, allDigits_of_forall s h2⟩]
  have hge : (0 : Int) ≤ (digitsToNat s : Int) := Int.ofNat_nonneg _
  have hmin : i64Min ≤ 1 * (digitsToNat s : Int) := by
    rw [one_mul]
    calc i64Min ≤ 0 := by decide
    _ ≤ _ := hge
  rw [if_pos ⟨hmin, by rwa [one_mul]⟩, one_mul]

theorem from_parts_ok (D : Nat) (ip f : Nat) (hf : (f : Int) < scaleOf D)
    (hsum : (ip : Int) * scaleOf D + (f : Int) ≤ i64Max) :
    from_parts D (ip : Int) f = .ok ((ip : Int) * scaleOf D + (f : Int)) := by
  have hs := scaleOf_pos D
  have hip : (0 : Int) ≤ (ip : Int) := Int.ofNat_nonneg _
  have hfn : (0 : Int) ≤ (f : Int) := Int.ofNat_nonneg _
  have hprod : (0 : Int) ≤ (ip : Int) * scaleOf D := mul_nonneg hip (le_of_lt hs)
  have hmin0 : i64Min ≤ (0 : Int) := by decide
  unfold from_parts
  rw [if_neg (not_le.mpr hf)]
  unfold i64CheckedMul
  rw [if_pos ⟨le_trans hmin0 hprod, by linarith⟩]
  simp only
  rw [if_neg (not_lt.mpr hip)]
  unfold i64CheckedAdd
  rw [if_pos ⟨le_trans hmin0 (by linarith), hsum⟩]

theorem wrapI64_eq_self (x : Int) (h1 : i64Min ≤ x) (h2 : x ≤ i64Max) :
    wrapI64 x = x := by
  unfold wrapI64
  unfold i64Min at h1
  unfold i64Max at h2
  rw [Int.emod_eq_of_lt (by linarith) (by linarith)]
  ring

theorem pad0Left_length (w : Nat) (s : List Char) (h : s.length ≤ w) :
    (pad0Left w s).length = w := by
  rw [pad0Left, List.length_append, List.length_replicate]
  omega

theorem pad0Right_eq_self (w : Nat) (s : List Char) (h : s.length = w) :
    pad0Right w s = s := by
  rw [pad0Right, h, Nat.sub_self, List.replicate_zero, List.append_nil]

theorem pad0Left_digits (w : Nat) (s : List Char)
    (h : ∀ c ∈ s, isDigitChar c = true) :
    ∀ c ∈ pad0Left w s, isDigitChar c = true := by
  intro c hc
  rw [pad0Left, List.mem_append] at hc
  rcases hc with hc | hc
  · rw [List.eq_of_mem_replicate hc]
    decide
  · exact h c hc

theorem from_str_master (D : Nat) (hD : D ≠ 0) (neg : Bool) (ip f : Nat)
    (hf : f < 10 ^ D) (hf64 : f < 2 ^ 64)
    (hsum : (ip : Int) * scaleOf D + (f : Int) ≤ i64Max) :
    from_str D ((if neg then [Char.ofNat 45] else []) ++
        (natDisplay ip ++ Char.ofNat 46 :: pad0Left D (natDisplay f)))
      = .ok (if neg then wrapI64 (-((ip : Int) * scaleOf D + (f : Int)))
             else (ip : Int) * scaleOf D + (f : Int)) := by
  obtain ⟨hipDig, hipVal, hipNe⟩ := natDisplay_spec ip
  obtain ⟨hfDig, hfVal, hfNe⟩ := natDisplay_spec f
  have hs := scaleOf_pos D
  have hs1 : (1 : Int) ≤ scaleOf D := hs
  have hip0 : (0 : Int) ≤ (ip : Int) := Int.ofNat_nonneg _
  have hf0 : (0 : Int) ≤ (f : Int) := Int.ofNat_nonneg _
  have hipMax : (ip : Int) ≤ i64Max := by
    have h1 : (ip : Int) * 1 ≤ (ip : Int) * scaleOf D :=
      mul_le_mul_of_nonneg_left hs1 hip0
    rw [mul_one] at h1
    linarith
  have hD1 : 1 ≤ D := Nat.one_le_iff_ne_zero.mpr hD
  have hlenf : (natDisplay f).length ≤ D := natDisplay_length_le f D hf hD1
  have hpadDig := pad0Left_digits D (natDisplay f) hfDig
  have hpadLen : (pad0Left D (natDisplay f)).length = D := pad0Left_length D _ hlenf
  have hpadNe : pad0Left D (natDisplay f) ≠ [] := by
    intro he
    rw [he] at hpadLen
    exact hD hpadLen.symm
  have hbodyWs : ∀ c ∈ natDisplay ip ++ Char.ofNat 46 :: pad0Left D (natDisplay f),
      c.isWhitespace = false := by
    intro c hc
    rw [List.mem_append, List.mem_cons] at hc
    rcases hc with hc | rfl | hc
    · exact digit_not_ws (hipDig c hc)
    · decide
    · exact digit_not_ws (hpadDig c hc)
  have hbodyNe : natDisplay ip ++ Char.ofNat 46 :: pad0Left D (natDisplay f) ≠ [] := by
    cases hnd : natDisplay ip with
    | nil => exact absurd hnd hipNe
    | cons a t => simp
  have hstrip : stripNeg ((if neg then [Char.ofNat 45] else []) ++
        (natDisplay ip ++ Char.ofNat 46 :: pad0Left D (natDisplay f)))
      = (neg, natDisplay ip ++ Char.ofNat 46 :: pad0Left D (natDisplay f)) := by
    cases neg with
    | true =>
      rw [if_pos rfl, List.singleton_append, stripNeg, if_pos rfl]
    | false =>
      rw [if_neg (by decide), List.nil_append]
      cases hnd : natDisplay ip with
      | nil => exact absurd hnd hipNe
      | cons a t =>
        have ha : isDigitChar a = true := by
          apply hipDig
          rw [hnd]
          exact List.mem_cons_self a t
        show stripNeg (a :: (t ++ Char.ofNat 46 :: pad0Left D (natDisplay f))) = _
        rw [stripNeg, if_neg (digit_ne_char ha 45 (by norm_num) (by decide))]
        rfl
  have hsplit : splitDot (natDisplay ip ++ Char.ofNat 46 :: pad0Left D (natDisplay f))
      = (natDisplay ip, some (pad0Left D (natDisplay f))) :=
    splitDot_append_dot _ _
      (fun c hc => digit_ne_char (hipDig c hc) 46 (by norm_num) (by decide))
  have hws : ∀ c ∈ (if neg then [Char.ofNat 45] else []) ++
      (natDisplay ip ++ Char.ofNat 46 :: pad0Left D (natDisplay f)),
      c.isWhitespace = false := by
    intro c hc
    rw [List.mem_append] at hc
    rcases hc with hc | hc
    · cases neg with
      | true =>
        rw [if_pos rfl, List.mem_singleton] at hc
        rw [hc]
        decide
      | false => simp at hc
    · exact hbodyWs c hc
  have hne : (if neg then [Char.ofNat 45] else []) ++
      (natDisplay ip ++ Char.ofNat 46 :: pad0Left D (natDisplay f)) ≠ [] := by
    intro he
    rw [List.append_eq_nil] at he
    exact hbodyNe he.2
  unfold from_str
  rw [trimChars_eq_self _ hws, if_neg hne, hstrip]
  simp only
  rw [hsplit]
  simp only
  rw [if_neg hipNe, parseI64_digits _ hipNe hipDig (by rwa [hipVal])]
  simp only [hipVal]
  rw [if_neg hpadNe, hpadLen, if_neg (lt_irrefl D),
    pad0Right_eq_self D _ hpadLen,
    parseU64_digits _ hpadNe hpadDig (by rwa [digitsToNat_pad0Left, hfVal]),
    digitsToNat_pad0Left, hfVal]
  simp only
  rw [from_parts_ok D ip f (by push_cast [scaleOf]; exact_mod_cast hf) hsum]


theorem from_str_master_d0 (neg : Bool) (ip : Nat) (hip : (ip : Int) ≤ i64Max) :
    from_str 0 ((if neg then [Char.ofNat 45] else []) ++ natDisplay ip)
      = .ok (if neg then wrapI64 (-(ip : Int)) else (ip : Int)) := by
  obtain ⟨hipDig, hipVal, hipNe⟩ := natDisplay_spec ip
  have hws : ∀ c ∈ (if neg then [Char.ofNat 45] else []) ++ natDisplay ip,
      c.isWhitespace = false := by
    intro c hc
    rw [List.mem_append] at hc
    rcases hc with hc | hc
    · cases neg with
      | true =>
        rw [if_pos rfl, List.mem_singleton] at hc
        rw [hc]
        decide
      | false => simp at hc
    · exact digit_not_ws (hipDig c hc)
  have hne : (if neg then [Char.ofNat 45] else []) ++ natDisplay ip ≠ [] := by
    intro he
    rw [List.append_eq_nil] at he
    exact hipNe he.2
  have hstrip : stripNeg ((if neg then [Char.ofNat 45] else []) ++ natDisplay ip)
      = (neg, natDisplay ip) := by
    cases neg with
    | true => rw [if_pos rfl, List.singleton_append, stripNeg, if_pos rfl]
    | false =>
      rw [if_neg (by decide), List.nil_append]
      cases hnd : natDisplay ip with
      | nil => exact absurd hnd hipNe
      | cons a t =>
        have ha : isDigitChar a = true := by
          apply hipDig
          rw [hnd]
          exact List.mem_cons_self a t
        rw [stripNeg, if_neg (digit_ne_char ha 45 (by norm_num) (by decide))]
  have hsplit : splitDot (natDisplay ip) = (natDisplay ip, none) :=
    splitDot_no_dot _
      (fun c hc => digit_ne_char (hipDig c hc) 46 (by norm_num) (by decide))
  unfold from_str
  rw [trimChars_eq_self _ hws, if_neg hne, hstrip]
  simp only
  rw [hsplit]
  simp only
  rw [if_neg hipNe, parseI64_digits _ hipNe hipDig (by rwa [hipVal]), hipVal]
  simp only
  rw [from_parts_ok 0 ip 0 (by norm_num [scaleOf]) (by simpa [scaleOf] using hip)]
  simp [scaleOf]

/-- The claim `parse(format(x)) = x` fails at the raw value `i64::MIN` with
`D = 9`: the formatted string `-9223372036.854775808` parses back through
`from_parts(9223372036, 854775808)`, whose checked addition exceeds
`i64::MAX`, so parsing returns `Err(Overflow)` instead of `Ok(x)`. -/
theorem C10_roundtrip_counterexample :
    from_str 9 (formatFD 9 i64Min) = .error NumericError.overflow := by
  rfl

/-- C10 (amended): for every representable value whose raw representation is
not `i64::MIN`, parsing the formatted string returns the value:
`parse(format(x)) = Ok(x)` for all raw `x` with `i64::MIN < x ≤ i64::MAX`
(any scale `D`). -/
theorem C10_parse_format_roundtrip (D : Nat) (raw : Int)
    (h1 : i64Min < raw) (h2 : raw ≤ i64Max) :
    from_str D (formatFD D raw) = .ok raw := by
  have eMin : i64Min = -9223372036854775808 := by norm_num [i64Min]
  have eMax : i64Max = 9223372036854775807 := by norm_num [i64Max]
  by_cases hD : D = 0
  · subst hD
    have hsc : scaleOf 0 = 1 := by norm_num [scaleOf]
    have hfmt : formatFD 0 raw = intDisplay raw := by
      rw [formatFD, if_pos rfl, hsc, Int.tdiv_one]
    rw [hfmt]
    rcases le_or_lt 0 raw with hpos | hneg
    · have habs : ((raw.natAbs : Nat) : Int) = raw := Int.natAbs_of_nonneg hpos
      have := from_str_master_d0 false raw.natAbs (by rw [habs]; exact h2)
      rw [if_neg (by decide), List.nil_append] at this
      rw [intDisplay, if_neg (not_lt.mpr hpos), this, if_neg (by decide), habs]
    · have habs : ((raw.natAbs : Nat) : Int) = -raw := by
        rw [← Int.natAbs_neg]
        exact Int.natAbs_of_nonneg (by linarith)
      have hbound : ((raw.natAbs : Nat) : Int) ≤ i64Max := by
        rw [habs]
        omega
      have := from_str_master_d0 true raw.natAbs hbound
      rw [if_pos rfl, List.singleton_append] at this
      rw [intDisplay, if_pos hneg, this, if_pos rfl, habs, neg_neg,
        wrapI64_eq_self raw (le_of_lt h1) h2]
  · have hD1 : 1 ≤ D := Nat.one_le_iff_ne_zero.mpr hD
    have hsN : 0 < 10 ^ D := Nat.pos_pow_of_pos D (by norm_num)
    have hscast : scaleOf D = ((10 ^ D : Nat) : Int) := by
      rw [scaleOf]
      push_cast
      rfl
    rcases le_or_lt 0 raw with hpos | hneg
    · set m : Nat := raw.natAbs with hm
      have hraw : raw = (m : Int) := (Int.natAbs_of_nonneg hpos).symm
      have hmMax : (m : Int) ≤ i64Max := hraw ▸ h2
      have htdiv : raw.tdiv (scaleOf D) = ((m / 10 ^ D : Nat) : Int) := by
        rw [hraw, hscast]
        exact (Int.ofNat_tdiv m (10 ^ D)).symm
      have htmod : (raw.tmod (scaleOf D)).natAbs = m % 10 ^ D := by
        rw [hraw, hscast, ← Int.ofNat_tmod]
        exact Int.natAbs_ofNat _
      have hfmt : formatFD D raw
          = natDisplay (m / 10 ^ D) ++ Char.ofNat 46 ::
              pad0Left D (natDisplay (m % 10 ^ D)) := by
        rw [formatFD]
        simp only [htdiv, htmod]
        rw [if_neg hD, if_neg (by rintro ⟨h, _⟩; exact absurd h (not_lt.mpr hpos)),
          intDisplay, if_neg (not_lt.mpr (Int.ofNat_nonneg _)), Int.natAbs_ofNat]
      have hnat : m / 10 ^ D * 10 ^ D + m % 10 ^ D = m := by
        rw [Nat.mul_comm]
        exact Nat.div_add_mod m (10 ^ D)
      have hsum : ((m / 10 ^ D : Nat) : Int) * scaleOf D + ((m % 10 ^ D : Nat) : Int)
          = raw := by
        rw [hraw, hscast]
        exact_mod_cast hnat
      have := from_str_master D hD false (m / 10 ^ D) (m % 10 ^ D)
        (Nat.mod_lt m hsN) (by have := Nat.mod_le m (10 ^ D); omega)
        (by rw [hsum]; exact h2)
      rw [if_neg (by decide), List.nil_append] at this
      rw [hfmt, this, if_neg (by decide), hsum]
    · set m : Nat := raw.natAbs with hm
      have hraw : raw = -(m : Int) := by
        have : ((m : Nat) : Int) = -raw := by
          rw [hm, ← Int.natAbs_neg]
          exact Int.natAbs_of_nonneg (by linarith)
        linarith
      have hmMax : (m : Int) ≤ i64Max := by
        have : ((m : Nat) : Int) = -raw := by linarith [hraw]
        omega
      have htdiv : raw.tdiv (scaleOf D) = -((m / 10 ^ D : Nat) : Int) := by
        rw [hraw, hscast, Int.neg_tdiv]
        rw [← Int.ofNat_tdiv]
      have htmod : (raw.tmod (scaleOf D)).natAbs = m % 10 ^ D := by
        have hneg_tmod : (-(m : Int)).tmod (scaleOf D) = -((m : Int).tmod (scaleOf D)) := by
          rw [Int.tmod_def, Int.tmod_def, Int.neg_tdiv]
          ring
        rw [hraw, hneg_tmod, Int.natAbs_neg, hscast, ← Int.ofNat_tmod]
        exact Int.natAbs_ofNat _
      have hnat : m / 10 ^ D * 10 ^ D + m % 10 ^ D = m := by
        rw [Nat.mul_comm]
        exact Nat.div_add_mod m (10 ^ D)
      have hsum : ((m / 10 ^ D : Nat) : Int) * scaleOf D + ((m % 10 ^ D : Nat) : Int)
          = (m : Int) := by
        rw [hscast]
        exact_mod_cast hnat
      have hsumMax : ((m / 10 ^ D : Nat) : Int) * scaleOf D + ((m % 10 ^ D : Nat) : Int)
          ≤ i64Max := by rw [hsum]; exact hmMax
      have hmaster := from_str_master D hD true (m / 10 ^ D) (m % 10 ^ D)
        (Nat.mod_lt m hsN) (by have := Nat.mod_le m (10 ^ D); omega) hsumMax
      rw [if_pos rfl, List.singleton_append, if_pos rfl, hsum] at hmaster
      have hwrap : wrapI64 (-(m : Int)) = raw := by
        rw [← hraw]
        exact wrapI64_eq_self raw (le_of_lt h1) h2
      by_cases hz : m / 10 ^ D = 0
      · have hfmt : formatFD D raw
            = Char.ofNat 45 :: (natDisplay 0 ++ Char.ofNat 46 ::
                pad0Left D (natDisplay (m % 10 ^ D))) := by
          rw [formatFD]
          simp only [htdiv, htmod]
          rw [if_neg hD, if_pos ⟨hneg, by rw [hz]; norm_num⟩]
          rfl
        rw [hz] at hmaster
        rw [hfmt, hmaster, hwrap]
      · have hlt : -((m / 10 ^ D : Nat) : Int) < 0 := by
          have : 0 < ((m / 10 ^ D : Nat) : Int) := by exact_mod_cast Nat.pos_of_ne_zero hz
          linarith
        have hfmt : formatFD D raw
            = Char.ofNat 45 :: (natDisplay (m / 10 ^ D) ++ Char.ofNat 46 ::
                pad0Left D (natDisplay (m % 10 ^ D))) := by
          rw [formatFD]
          simp only [htdiv, htmod]
          rw [if_neg hD, if_neg (by rintro ⟨_, h⟩; omega),
            intDisplay, if_pos hlt, Int.natAbs_neg, Int.natAbs_ofNat]
          rfl
        rw [hfmt, hmaster, hwrap]

/-- Witness for the amended C10 round trip at the concrete raw value `-1`
with `D = 9` (formatted as `-0.000000001`). -/
theorem C10_parse_format_roundtrip_witness :
    from_str 9 (formatFD 9 (-1)) = .ok (-1) :=
  C10_parse_format_roundtrip 9 (-1) (by decide) (by decide)

/-! Domain model (`src/domain/order.rs`, `src/domain/trade.rs`,
`src/domain/order_book.rs`).  Order identifiers (UUIDs) are modelled as
`Nat`; quantities and prices are the raw scaled `i64` values as `Int`.
The atomic fields of `Order` are modelled by their single-threaded
semantics: a CAS loop that reads, checks and writes becomes a pure
check-and-update. -/

/-- Order side (`Side` in `src/domain/order.rs`). -/
inductive Side
  | buy
  | sell
deriving DecidableEq, Repr

/-- Order type (`OrderType`); the stop-limit trigger price is carried but
unused by the engine. -/
inductive OrderType
  | limit
  | market
  | stopLimit (triggerPrice : Int)
deriving DecidableEq, Repr

/-- Time in force (`TimeInForce`); the `GoodTillDate` timestamp is dropped
because no embedded operation reads it. -/
inductive TimeInForce
  | goodTillCancel
  | immediateOrCancel
  | fillOrKill
  | goodTillDate
deriving DecidableEq, Repr

/-- Order lifecycle state (`state::OrderState`). -/
inductive OrderState
  | pending
  | accepted
  | partiallyFilled
  | filled
  | cancelled
  | rejected
  | expired
deriving DecidableEq, Repr

/-- Embedding of `OrderState::is_terminal`. -/
def OrderState.is_terminal : OrderState → Bool
  | .filled | .cancelled | .rejected | .expired => true
  | _ => false

/-- Embedding of `OrderState::can_be_cancelled`. -/
def OrderState.can_be_cancelled : OrderState → Bool
  | .accepted | .partiallyFilled => true
  | _ => false

/-- State transitions of the order state machine
(`OrderState::transition`); `none` models the `Err` of an invalid
transition. -/
inductive OrderStateTransition
  | accept
  | reject
  | partialFill
  | fill
  | cancel
  | expire
deriving DecidableEq, Repr

/-- Embedding of `OrderState::transition` (`src/domain/order.rs`,
lines 131-158). -/
def OrderState.transition : OrderState → OrderStateTransition → Option OrderState
  | .pending, .accept => some .accepted
  | .pending, .reject => some .rejected
  | .accepted, .partialFill => some .partiallyFilled
  | .accepted, .fill => some .filled
  | .accepted, .cancel => some .cancelled
  | .accepted, .expire => some .expired
  | .partiallyFilled, .fill => some .filled
  | .partiallyFilled, .cancel => some .cancelled
  | .partiallyFilled, .expire => some .expired
  | _, _ => none

/-- Embedding of the `Order` entity.  `user_id` is a numeric stand-in for
the account string (only equality matters); the immutable descriptive
fields the claims never read (instrument, timestamp) are dropped. -/
structure Order where
  id : Nat
  user_id : Nat
  side : Side
  order_type : OrderType
  price : Option Int
  quantity : Int
  time_in_force : TimeInForce
  is_hidden : Bool
  display_quantity : Option Int
  filled_quantity : Int
  remaining_quantity : Int
  state : OrderState
  sequence_number : Int
deriving DecidableEq, Repr

/-- Embedding of `Order::new`: a fresh pending order. -/
def Order.new (id user_id : Nat) (side : Side) (order_type : OrderType)
    (price : Option Int) (quantity : Int) (tif : TimeInForce) : Order :=
  { id := id, user_id := user_id, side := side, order_type := order_type,
    price := price, quantity := quantity, time_in_force := tif,
    is_hidden := false, display_quantity := none,
    filled_quantity := 0, remaining_quantity := quantity,
    state := .pending, sequence_number := 0 }

/-- Embedding of `Order::try_fill` (`src/domain/order.rs`, lines 304-344)
under single-threaded semantics: the CAS loop succeeds on first attempt.
The function checks only the remaining quantity — the order's state is not
consulted — and overwrites the state with `Filled` or `PartiallyFilled`. -/
def Order.try_fill (o : Order) (quantity : Int) : Order × Bool :=
  if o.remaining_quantity < quantity then (o, false)
  else
    let newRemaining := o.remaining_quantity - quantity
    ({ o with
        remaining_quantity := newRemaining,
        filled_quantity := o.filled_quantity + quantity,
        state := if newRemaining = 0 then .filled else .partiallyFilled },
      true)

/-- Embedding of `Order::try_cancel` (`src/domain/order.rs`,
lines 348-364): only the state is touched; the remaining quantity is left
as is. -/
def Order.try_cancel (o : Order) : Order × Bool :=
  if o.state.can_be_cancelled then ({ o with state := .cancelled }, true)
  else (o, false)

/-- Embedding of `Order::get_visible_quantity`. -/
def Order.get_visible_quantity (o : Order) : Int :=
  if o.is_hidden then 0
  else
    match o.display_quantity with
    | some display => min display o.remaining_quantity
    | none => o.remaining_quantity

/-- Embedding of `Order::is_limit_order`. -/
def Order.is_limit_order (o : Order) : Bool := o.order_type = OrderType.limit

/-- Embedding of `Order::is_market_order`. -/
def Order.is_market_order (o : Order) : Bool := o.order_type = OrderType.market

/-- The heap of live orders: every `Arc<Order>` of the Rust process appears
here keyed by its id.  Lookups scan for the first entry with the given
id. -/
abbrev Store := List Order

/-- Look up an order by id (dereferencing an `Arc`). -/
def Store.get? (s : Store) (i : Nat) : Option Order := List.find? (fun o => o.id = i) s

/-- Write back an updated order (the effect of a mutation through an
`Arc`). -/
def Store.set (s : Store) (o : Order) : Store :=
  List.map (fun p => if p.id = o.id then o else p) s

/-- `try_fill` performed through the heap: looks the order up, applies
`Order.try_fill`, and stores the updated order on success. -/
def Store.try_fill (s : Store) (i : Nat) (quantity : Int) : Store × Bool :=
  match s.get? i with
  | none => (s, false)
  | some o =>
    let r := o.try_fill quantity
    (if r.2 then s.set r.1 else s, r.2)

/-- Filled quantity of the order with id `i` (zero when absent). -/
def Store.filledOf (s : Store) (i : Nat) : Int :=
  match s.get? i with
  | some o => o.filled_quantity
  | none => 0

/-- Embedding of `Trade` (`src/domain/trade.rs`); the UUID and timestamp
are dropped, the price is the raw scaled value. -/
structure Trade where
  maker_order_id : Nat
  taker_order_id : Nat
  price : Int
  quantity : Int
deriving DecidableEq, Repr

/-- Embedding of `OrderBookLevel` (`src/domain/order_book.rs`,
lines 21-58): the `SegQueue` is a FIFO list of order ids — `pop` takes the
head, `push` appends at the tail — plus the atomic aggregate quantity. -/
structure OrderBookLevel where
  price : Int
  orders : List Nat
  total_quantity : Int
deriving DecidableEq, Repr

/-- Embedding of `OrderBookLevel::add_order`: bump the aggregate by the
order's current remaining quantity and push the order at the queue tail. -/
def OrderBookLevel.add_order (lv : OrderBookLevel) (o : Order) : OrderBookLevel :=
  { lv with
      total_quantity := lv.total_quantity + o.remaining_quantity,
      orders := lv.orders ++ [o.id] }

/-- Embedding of `OrderBookLevel::subtract_quantity`. -/
def OrderBookLevel.subtract_quantity (lv : OrderBookLevel) (q : Int) : OrderBookLevel :=
  { lv with total_quantity := lv.total_quantity - q }

/-- Embedding of `OrderBookLevel::is_empty`. -/
def OrderBookLevel.is_empty (lv : OrderBookLevel) : Bool := lv.orders.isEmpty

/-- Insert into the sorted level list (the `SkipMap` keyed by raw price):
find or create the level for the price, keeping keys ascending. -/
def insertIntoLevels (levels : List OrderBookLevel) (price : Int) (o : Order) :
    List OrderBookLevel :=
  match levels with
  | [] => [OrderBookLevel.add_order ⟨price, [], 0⟩ o]
  | lv :: rest =>
    if price < lv.price then OrderBookLevel.add_order ⟨price, [], 0⟩ o :: lv :: rest
    else if price = lv.price then lv.add_order o :: rest
    else lv :: insertIntoLevels rest price o

/-- Embedding of `OrderBookSide` (`src/domain/order_book.rs`,
lines 66-157): the `SkipMap` from raw price to level becomes a list of
levels sorted by ascending price. -/
structure OrderBookSide where
  side : Side
  levels : List OrderBookLevel
deriving DecidableEq, Repr

/-- Embedding of `OrderBookSide::add_order`: `order.price.expect(..)`
panics when the order has no price, modelled as `none`. -/
def OrderBookSide.add_order (b : OrderBookSide) (o : Order) : Option OrderBookSide :=
  match o.price with
  | none => none
  | some p => some { b with levels := insertIntoLevels b.levels p o }

/-- Embedding of `OrderBookSide::best_price`: highest price for the buy
side, lowest for the sell side. -/
def OrderBookSide.best_price (b : OrderBookSide) : Option Int :=
  match b.side with
  | .buy => (b.levels.getLast?).map (·.price)
  | .sell => (b.levels.head?).map (·.price)

/-- Embedding of `OrderBookSide::best_level`. -/
def OrderBookSide.best_level (b : OrderBookSide) : Option OrderBookLevel :=
  match b.side with
  | .buy => b.levels.getLast?
  | .sell => b.levels.head?

/-- Write an updated level back into the side (the effect of mutating the
level through its `Arc`); levels are identified by their price key. -/
def OrderBookSide.set_level (b : OrderBookSide) (lv : OrderBookLevel) : OrderBookSide :=
  { b with levels := b.levels.map (fun l => if l.price = lv.price then lv else l) }

/-- Embedding of `OrderBookSide::remove_empty_levels`: sweep every level
whose queue is empty. -/
def OrderBookSide.remove_empty_levels (b : OrderBookSide) : OrderBookSide :=
  { b with levels := b.levels.filter (fun lv => ¬ lv.is_empty) }

/-- Embedding of `OrderBookSide::get_depth`: the top `n` levels from the
best side with their aggregate quantities. -/
def OrderBookSide.get_depth (b : OrderBookSide) (n : Nat) : List (Int × Int) :=
  match b.side with
  | .buy => (b.levels.reverse.take n).map (fun lv => (lv.price, lv.total_quantity))
  | .sell => (b.levels.take n).map (fun lv => (lv.price, lv.total_quantity))

/-- Embedding of `OrderBookSnapshot` (`src/domain/order_book.rs`,
lines 166-238). -/
structure OrderBookSnapshot where
  bids : List (Int × Int)
  asks : List (Int × Int)
  spread : Option Int
  mid_price : Option Int
deriving DecidableEq, Repr

/-- Embedding of `OrderBookSnapshot::with_depth` (lines 189-217): the
spread is `ask.checked_sub(bid)` on the best entries, the mid price is the
checked sum halved on the raw value (i64 division truncates toward
zero). -/
def OrderBookSnapshot.with_depth (bids asks : List (Int × Int)) : OrderBookSnapshot :=
  let spread :=
    match bids.head?, asks.head? with
    | some (bid, _), some (ask, _) => i64CheckedSub ask bid
    | _, _ => none
  let mid_price :=
    match bids.head?, asks.head? with
    | some (bid, _), some (ask, _) =>
      (i64CheckedAdd bid ask).bind (fun sum =>
        (i64CheckedMul sum 1).map (fun s => s.tdiv 2))
    | _, _ => none
  { bids := bids, asks := asks, spread := spread, mid_price := mid_price }

/-- Embedding of `OrderBookSnapshot::best_bid`. -/
def OrderBookSnapshot.best_bid (s : OrderBookSnapshot) : Option Int :=
  s.bids.head?.map (·.1)

/-- Embedding of `OrderBookSnapshot::best_ask`. -/
def OrderBookSnapshot.best_ask (s : OrderBookSnapshot) : Option Int :=
  s.asks.head?.map (·.1)

/-! Matching algorithms (`src/engine/price_time.rs`,
`src/engine/pro_rata.rs`) under single-threaded semantics.  The loops of
the Rust sources run until book state stops them; the outer loops take a
fuel argument (returning the current state when it runs out), while the
inner loops are structural over the drained queues. -/

/-- Embedding of the default `MatchingAlgorithm::prices_cross`
(`src/interfaces/matching_algorithm.rs`, lines 27-40): a buy taker without a
price is treated as `Decimal::MAX` (which dominates every book price, hence
`true`), a sell taker without a price as zero. -/
def prices_cross (incoming : Order) (book_price : Int) : Bool :=
  match incoming.side with
  | .buy =>
    match incoming.price with
    | none => true
    | some p => book_price ≤ p
  | .sell =>
    match incoming.price with
    | none => (0 : Int) ≤ book_price
    | some p => p ≤ book_price

/-- Embedding of the inner FIFO pop loop of
`PriceTimePriority::match_order` (`src/engine/price_time.rs`,
lines 83-119).  Pops makers from the queue head; a maker with zero
remaining is dropped; otherwise `min(taker, maker)` is filled on both
sides, the trade is recorded, the aggregate reduced, and a maker with
leftover quantity is pushed back — `SegQueue::push` appends at the
**tail** — before the loop breaks.  `none` models the
`maker_order.price.unwrap()` panic.  A queue id absent from the store has
no Rust counterpart (the queue holds live `Arc`s) and is skipped. -/
def pt_pop_loop : Store → Order → List Nat → Int → List Trade →
    Option (Store × Order × List Nat × Int × List Trade)
  | store, taker, [], total, trades => some (store, taker, [], total, trades)
  | store, taker, mid :: rest, total, trades =>
    match store.get? mid with
    | none => pt_pop_loop store taker rest total trades
    | some maker =>
      if maker.remaining_quantity = 0 then
        pt_pop_loop store taker rest total trades
      else
        let trade_quantity := min taker.remaining_quantity maker.remaining_quantity
        let r1 := store.try_fill mid trade_quantity
        if r1.2 then
          let r2 := taker.try_fill trade_quantity
          if r2.2 then
            match maker.price with
            | none => none
            | some maker_price =>
              let trades2 := trades ++ [⟨mid, taker.id, maker_price, trade_quantity⟩]
              let total2 := total - trade_quantity
              if (0 : Int) < (match r1.1.get? mid with
                      | some m => m.remaining_quantity
                      | none => (0 : Int)) then
                some (r1.1, r2.1, rest ++ [mid], total2, trades2)
              else if r2.1.remaining_quantity = 0 then
                some (r1.1, r2.1, rest, total2, trades2)
              else
                pt_pop_loop r1.1 r2.1 rest total2 trades2
          else
            if taker.remaining_quantity = 0 then some (r1.1, taker, rest, total, trades)
            else pt_pop_loop r1.1 taker rest total trades
        else
          if taker.remaining_quantity = 0 then some (store, taker, rest, total, trades)
          else pt_pop_loop store taker rest total trades

/-- Embedding of the outer loop of `PriceTimePriority::match_order`
(`src/engine/price_time.rs`, lines 70-129).  The `use_simd` fast path is a
floating-point rejection pre-filter over the same book and is not modelled;
the scalar loop below is the authoritative matching semantics.  Fuel
exhaustion returns the state reached so far. -/
def pt_match : Nat → Store → Order → OrderBookSide → List Trade →
    Option (Store × Order × OrderBookSide × List Trade)
  | 0, store, taker, side, trades => some (store, taker, side, trades)
  | fuel + 1, store, taker, side, trades =>
    if ¬ (0 < taker.remaining_quantity) then some (store, taker, side, trades)
    else
      match side.best_level with
      | none => some (store, taker, side, trades)
      | some lv =>
        if ¬ prices_cross taker lv.price then some (store, taker, side, trades)
        else
          match pt_pop_loop store taker lv.orders lv.total_quantity trades with
          | none => none
          | some (store2, taker2, queue2, total2, trades2) =>
            let lv2 : OrderBookLevel := ⟨lv.price, queue2, total2⟩
            let side2 := side.set_level lv2
            let side3 := if lv2.is_empty then side2.remove_empty_levels else side2
            if taker2.remaining_quantity = 0 then some (store2, taker2, side3, trades2)
            else pt_match fuel store2 taker2 side3 trades2

/-- Embedding of the drain phase of `ProRata::calculate_allocation`
(`src/engine/pro_rata.rs`, lines 57-67): pop every order, classify it as
eligible (`remaining >= minimum_quantity`, keeping its remaining) or
ineligible, and sum the eligible remainders. -/
def pr_drain (minq : Int) (store : Store) :
    List Nat → List (Nat × Int) × List Nat × Int
  | [] => ([], [], 0)
  | i :: rest =>
    let r := pr_drain minq store rest
    match store.get? i with
    | none => r
    | some o =>
      if minq ≤ o.remaining_quantity then
        ((i, o.remaining_quantity) :: r.1, r.2.1, r.2.2 + o.remaining_quantity)
      else
        (r.1, i :: r.2.1, r.2.2)

/-- Add the rounding remainder to the first allocation
(`allocations[0].1 = allocations[0].1 + remainder`). -/
def bump_head (allocs : List (Nat × Int)) (remainder : Int) : List (Nat × Int) :=
  match allocs with
  | [] => []
  | (i, a) :: rest => (i, a + remainder) :: rest

/-- Embedding of `ProRata::calculate_allocation` (`src/engine/pro_rata.rs`,
lines 45-106).  Ineligible orders are pushed back first, then the eligible
ones (in drain order) after their allocations are computed; when the
eligible total is zero the function returns early and the drained eligible
orders are dropped from the queue, exactly as in the source.  Each
allocation is `(r * quantity_to_fill) / eligible_total` computed in `i128`
(exact in `Int`) with truncating division and an `as i64` cast
(`wrapI64`). -/
def calculate_allocation (minq : Int) (store : Store) (queue : List Nat)
    (quantity_to_fill : Int) : List (Nat × Int) × List Nat :=
  let d := pr_drain minq store queue
  let eligible := d.1
  let ineligible := d.2.1
  let eligible_quantity := d.2.2
  if eligible_quantity = 0 then ([], ineligible)
  else
    let base := eligible.map (fun p =>
      (p.1, wrapI64 ((p.2 * quantity_to_fill).tdiv eligible_quantity)))
    let total_allocated := (base.map (·.2)).sum
    let remainder := quantity_to_fill - total_allocated
    let allocs := if 0 < remainder ∧ base ≠ [] then bump_head base remainder else base
    (allocs, ineligible ++ eligible.map (·.1))

/-- The maker search loop of `ProRata::match_order`
(`src/engine/pro_rata.rs`, lines 139-148): pop until the wanted id is
found, pushing the others back at the tail; when found, the queue is left
rotated with that order removed.  (When the id is absent from a non-empty
queue the Rust loop would rotate forever; that state is unreachable because
every allocated id was re-pushed by `calculate_allocation`.  The embedding
then reports failure with the fully rotated queue.) -/
def seg_find (i : Nat) : List Nat → List Nat → Bool × List Nat
  | [], acc => (false, acc)
  | x :: xs, acc =>
    if x = i then (true, xs ++ acc)
    else seg_find i xs (acc ++ [x])

/-- Embedding of the allocation execution loop of `ProRata::match_order`
(`src/engine/pro_rata.rs`, lines 133-178): for each positive allocation,
find the maker in the queue, fill `min(allocation, maker.remaining)` on
both sides, record the trade, reduce the aggregate, push the maker back at
the tail if it has leftover quantity, and stop as soon as the taker is
exhausted.  `none` models the `maker_order.price.unwrap()` panic. -/
def pr_exec : List (Nat × Int) → Store → Order → List Nat → Int → List Trade →
    Option (Store × Order × List Nat × Int × List Trade)
  | [], store, taker, queue, total, trades => some (store, taker, queue, total, trades)
  | (order_id, allocated_qty) :: restAllocs, store, taker, queue, total, trades =>
    if allocated_qty ≤ 0 then pr_exec restAllocs store taker queue total trades
    else
      let f := seg_find order_id queue []
      match (if f.1 then store.get? order_id else none) with
      | none =>
        if taker.remaining_quantity = 0 then some (store, taker, f.2, total, trades)
        else pr_exec restAllocs store taker f.2 total trades
      | some maker =>
        let trade_quantity := min allocated_qty maker.remaining_quantity
        if 0 < trade_quantity then
          let r1 := store.try_fill order_id trade_quantity
          if r1.2 then
            let r2 := taker.try_fill trade_quantity
            if r2.2 then
              match maker.price with
              | none => none
              | some maker_price =>
                let trades2 := trades ++
                  [⟨order_id, taker.id, maker_price, trade_quantity⟩]
                let total2 := total - trade_quantity
                let queue2 :=
                  if (0 : Int) < (match r1.1.get? order_id with
                          | some m => m.remaining_quantity
                          | none => (0 : Int))
                  then f.2 ++ [order_id] else f.2
                if r2.1.remaining_quantity = 0 then
                  some (r1.1, r2.1, queue2, total2, trades2)
                else pr_exec restAllocs r1.1 r2.1 queue2 total2 trades2
            else
              if taker.remaining_quantity = 0 then some (r1.1, taker, f.2, total, trades)
              else pr_exec restAllocs r1.1 taker f.2 total trades
          else
            if taker.remaining_quantity = 0 then some (store, taker, f.2, total, trades)
            else pr_exec restAllocs store taker f.2 total trades
        else
          if taker.remaining_quantity = 0 then some (store, taker, f.2, total, trades)
          else pr_exec restAllocs store taker f.2 total trades

/-- Embedding of the outer loop of `ProRata::match_order`
(`src/engine/pro_rata.rs`, lines 110-192).  Note that the level queue
mutation performed by `calculate_allocation` persists even when its result
is empty and the loop breaks, and the final guard breaks when a full
iteration consumed no taker quantity. -/
def pr_match : Nat → Int → Store → Order → OrderBookSide → List Trade →
    Option (Store × Order × OrderBookSide × List Trade)
  | 0, _, store, taker, side, trades => some (store, taker, side, trades)
  | fuel + 1, minq, store, taker, side, trades =>
    if ¬ (0 < taker.remaining_quantity) then some (store, taker, side, trades)
    else
      match side.best_level with
      | none => some (store, taker, side, trades)
      | some lv =>
        if ¬ prices_cross taker lv.price then some (store, taker, side, trades)
        else
          let remaining_to_fill := taker.remaining_quantity
          let c := calculate_allocation minq store lv.orders remaining_to_fill
          if c.1 = [] then
            some (store, taker,
              side.set_level ⟨lv.price, c.2, lv.total_quantity⟩, trades)
          else
            match pr_exec c.1 store taker c.2 lv.total_quantity trades with
            | none => none
            | some (store2, taker2, queue2, total2, trades2) =>
              let lv2 : OrderBookLevel := ⟨lv.price, queue2, total2⟩
              let side2 := side.set_level lv2
              let side3 := if lv2.is_empty then side2.remove_empty_levels else side2
              if taker2.remaining_quantity = remaining_to_fill then
                some (store2, taker2, side3, trades2)
              else pr_match fuel minq store2 taker2 side3 trades2

/-! Matching engine facade (`src/engine/matching_engine.rs`) and
configuration (`src/domain/config.rs`, `src/engine/factory.rs`).  Only the
two algorithms the claims exercise (price/time and pro-rata) are embedded;
the remaining three policy types of the repository are orthogonal to every
claim. -/

/-- Rejection reasons of `MatchingEngine::validate_order` (the reason
strings become constructors). -/
inductive RejectReason
  | quantityMustBePositive
  | limitOrdersMustHaveAPrice
  | priceMustBePositive
deriving DecidableEq, Repr

/-- Embedding of `OrderEvent` (`src/interfaces/event_handler.rs`);
timestamps are dropped. -/
inductive OrderEvent
  | orderReceived (order_id : Nat)
  | orderAccepted (order_id : Nat)
  | orderRejected (order_id : Nat) (reason : RejectReason)
  | orderMatched (trade : Trade)
  | orderPartiallyFilled (order_id : Nat) (filled_quantity remaining_quantity : Int)
  | orderFilled (order_id : Nat) (total_filled : Int)
  | orderCancelled (order_id : Nat)
  | orderExpired (order_id : Nat)
  | orderAddedToBook (order_id : Nat) (price quantity : Int)
deriving DecidableEq, Repr

/-- Embedding of `MatchingAlgorithmType` (`src/domain/config.rs`)
restricted to the embedded policies. -/
inductive MatchingAlgorithmType
  | priceTime (use_simd : Bool)
  | proRata (minimum_quantity : Int) (top_of_book_fifo : Bool)
deriving DecidableEq, Repr

/-- Embedding of the `MatchingEngine` state
(`src/engine/matching_engine.rs`, lines 17-38): book sides, the
cancellation index, the sequence counter, and the heap of live orders.
Note there is no order-book-type field — `MatchingEngine::new` receives
only instrument, algorithm and event handler. -/
structure MatchingEngine where
  algorithm : MatchingAlgorithmType
  bids : OrderBookSide
  asks : OrderBookSide
  order_index : List Nat
  sequence_counter : Int
  store : Store

/-- Embedding of `MatchingEngine::new`. -/
def MatchingEngine.new (alg : MatchingAlgorithmType) : MatchingEngine :=
  { algorithm := alg, bids := ⟨Side.buy, []⟩, asks := ⟨Side.sell, []⟩,
    order_index := [], sequence_counter := 0, store := [] }

/-- Dispatch to the configured policy's `match_order`. -/
def run_algorithm (fuel : Nat) (alg : MatchingAlgorithmType) (store : Store)
    (taker : Order) (opposite : OrderBookSide) :
    Option (Store × Order × OrderBookSide × List Trade) :=
  match alg with
  | .priceTime _ => pt_match fuel store taker opposite []
  | .proRata minq _ => pr_match fuel minq store taker opposite []

/-- Embedding of `MatchingEngine::validate_order`
(`src/engine/matching_engine.rs`, lines 235-260): quantity positivity, a
limit order must carry a price, and a limit price must be positive.
Nothing else is checked. -/
def validate_order (o : Order) : Option RejectReason :=
  if o.quantity ≤ 0 then some .quantityMustBePositive
  else if o.is_limit_order ∧ o.price = none then some .limitOrdersMustHaveAPrice
  else if o.is_limit_order then
    match o.price with
    | some p => if p ≤ 0 then some .priceMustBePositive else none
    | none => none
  else none

/-- Embedding of `MatchingEngine::add_to_book`
(`src/engine/matching_engine.rs`, lines 225-233): insert into the own side
(panics — `none` — for an order without a price) and index the order for
cancellation.  The order enters the heap here: this is where the book and
the index acquire their shared references. -/
def MatchingEngine.add_to_book (e : MatchingEngine) (o : Order) :
    Option MatchingEngine :=
  match o.side with
  | .buy =>
    match e.bids.add_order o with
    | none => none
    | some b =>
      some { e with
              bids := b
              order_index := e.order_index ++ [o.id]
              store := e.store ++ [o] }
  | .sell =>
    match e.asks.add_order o with
    | none => none
    | some b =>
      some { e with
              asks := b
              order_index := e.order_index ++ [o.id]
              store := e.store ++ [o] }

/-- Embedding of `MatchingEngine::submit_order`
(`src/engine/matching_engine.rs`, lines 59-172).  Returns the new engine
state, the final state of the submitted order (the caller's `Arc`), and the
event batch; `none` models a panic (`order.price.unwrap()` on a priceless
order reaching the rest-on-book path, via `add_to_book` or the
`OrderAddedToBook` event).  Note the final `else` branch — taken whenever
nothing was filled — adds the order to the book regardless of its time in
force, and the `GoodTillDate` arm of the partial-fill branch is the
source's `_ => {}`. -/
def MatchingEngine.submit_order (fuel : Nat) (e : MatchingEngine) (order : Order) :
    Option (MatchingEngine × Order × List OrderEvent) :=
  let events0 := [OrderEvent.orderReceived order.id]
  match validate_order order with
  | some reason =>
    let order2 := { order with state := OrderState.rejected }
    some (e, order2, events0 ++ [.orderRejected order.id reason])
  | none =>
    let seq := e.sequence_counter
    let e1 := { e with sequence_counter := e.sequence_counter + 1 }
    let order1 := { order with sequence_number := seq, state := OrderState.accepted }
    let events1 := events0 ++ [.orderAccepted order.id]
    let opposite := match order.side with | .buy => e1.asks | .sell => e1.bids
    match run_algorithm fuel e1.algorithm e1.store order1 opposite with
    | none => none
    | some (store2, taker2, opp2, trades) =>
      let e2 :=
        match order.side with
        | .buy => { e1 with asks := opp2, store := store2 }
        | .sell => { e1 with bids := opp2, store := store2 }
      let events2 := events1 ++ trades.map (fun t => OrderEvent.orderMatched t)
      let remaining := taker2.remaining_quantity
      let filled := taker2.filled_quantity
      if remaining = 0 ∧ 0 < filled then
        some (e2, taker2, events2 ++ [.orderFilled order.id filled])
      else if 0 < filled then
        let events3 := events2 ++ [.orderPartiallyFilled order.id filled remaining]
        match order.time_in_force with
        | .goodTillCancel =>
          match e2.add_to_book taker2 with
          | none => none
          | some e3 =>
            match order.price with
            | none => none
            | some p =>
              some (e3, taker2, events3 ++ [.orderAddedToBook order.id p remaining])
        | .immediateOrCancel =>
          let taker3 := { taker2 with state := OrderState.cancelled }
          some (e2, taker3, events3 ++ [.orderCancelled order.id])
        | .fillOrKill =>
          let taker3 := { taker2 with state := OrderState.cancelled }
          some (e2, taker3, events3 ++ [.orderCancelled order.id])
        | .goodTillDate => some (e2, taker2, events3)
      else
        match e2.add_to_book taker2 with
        | none => none
        | some e3 =>
          match order.price with
          | none => none
          | some p =>
            some (e3, taker2, events2 ++ [.orderAddedToBook order.id p remaining])

/-- Embedding of `MatchingEngine::cancel_order`
(`src/engine/matching_engine.rs`, lines 175-190): remove the id from the
index (whether or not the cancel succeeds) and attempt `try_cancel` on the
referenced order. -/
def MatchingEngine.cancel_order (e : MatchingEngine) (order_id : Nat) :
    MatchingEngine × Option OrderEvent :=
  if order_id ∈ e.order_index then
    let e1 := { e with order_index := e.order_index.erase order_id }
    match e.store.get? order_id with
    | none => (e1, none)
    | some o =>
      let r := o.try_cancel
      if r.2 then
        ({ e1 with store := e1.store.set r.1 }, some (.orderCancelled order_id))
      else (e1, none)
  else (e, none)

/-- Embedding of `MatchingEngine::get_snapshot`
(`src/engine/matching_engine.rs`, lines 193-198): depth from both sides —
the configured order book type plays no role here. -/
def MatchingEngine.get_snapshot (e : MatchingEngine) (depth : Nat) :
    OrderBookSnapshot :=
  OrderBookSnapshot.with_depth (e.bids.get_depth depth) (e.asks.get_depth depth)

/-- Embedding of `OrderBookType` (`src/domain/config.rs`). -/
inductive OrderBookType
  | transparent
  | darkPool
  | hybrid
deriving DecidableEq, Repr

/-- Embedding of `OrderBookConfig` (`src/domain/config.rs`,
lines 101-122); the instrument string is a character list. -/
structure OrderBookConfig where
  instrument : List Char
  order_book_type : OrderBookType
  matching_algorithm : MatchingAlgorithmType
  max_depth : Option Nat
  tick_size : Option Int
  lot_size : Option Int
deriving DecidableEq, Repr

/-- Configuration errors of `OrderBookConfig::validate`. -/
inductive ConfigError
  | instrumentCannotBeEmpty
  | tickSizeMustBePositive
  | lotSizeMustBePositive
  | minimumQuantityCannotBeNegative
deriving DecidableEq, Repr

/-- Embedding of `OrderBookConfig::new`. -/
def OrderBookConfig.new (instrument : List Char) (t : OrderBookType)
    (alg : MatchingAlgorithmType) : OrderBookConfig :=
  ⟨instrument, t, alg, none, none, none⟩

/-- Embedding of `OrderBookConfig::validate` (`src/domain/config.rs`,
lines 160-221) restricted to the embedded algorithm types. -/
def OrderBookConfig.validate (c : OrderBookConfig) : Option ConfigError :=
  if c.instrument = [] then some .instrumentCannotBeEmpty
  else if c.tick_size.any (fun t => t ≤ 0) then some .tickSizeMustBePositive
  else if c.lot_size.any (fun l => l ≤ 0) then some .lotSizeMustBePositive
  else
    match c.matching_algorithm with
    | .priceTime _ => none
    | .proRata minq _ =>
      if minq < 0 then some .minimumQuantityCannotBeNegative else none

/-- Embedding of `OrderBookConfig::dark_pool` (`src/domain/config.rs`,
lines 271-277): a dark-pool book with price/time matching. -/
def OrderBookConfig.dark_pool (instrument : List Char) : OrderBookConfig :=
  OrderBookConfig.new instrument .darkPool (.priceTime true)

/-- Embedding of `create_from_config` (`src/engine/factory.rs`,
lines 35-53): validate, build the algorithm, and construct the engine from
instrument, algorithm and handler alone — the `order_book_type` of the
configuration is not passed on and no snapshot-time enforcement exists
anywhere in the engine. -/
def create_from_config (c : OrderBookConfig) : Except ConfigError MatchingEngine :=
  match c.validate with
  | some e => .error e
  | none => .ok (MatchingEngine.new c.matching_algorithm)

/-! Infrastructure lemmas about the heap and the atomic fill. -/

theorem Store.get?_id (s : Store) (i : Nat) (o : Order) (h : s.get? i = some o) :
    o.id = i := by
  have := List.find?_some h
  simpa [decide_eq_true_eq] using this

theorem Store.get?_set_same (s : Store) (o o0 : Order) (h : s.get? o.id = some o0) :
    (s.set o).get? o.id = some o := by
  induction s with
  | nil => simp [Store.get?] at h
  | cons p rest ih =>
    by_cases hp : p.id = o.id
    · show Store.get? (List.map _ (p :: rest)) o.id = some o
      rw [List.map_cons, if_pos hp]
      exact List.find?_cons_of_pos _ (by simp)
    · have h' : Store.get? rest o.id = some o0 := by
        unfold Store.get? at h
        rwa [List.find?_cons_of_neg _ (by simpa using hp)] at h
      show Store.get? (List.map _ (p :: rest)) o.id = some o
      rw [List.map_cons, if_neg hp]
      rw [Store.get?, List.find?_cons_of_neg _ (by simpa using hp)]
      exact ih h'

theorem Store.get?_set_other (s : Store) (o : Order) (i : Nat) (h : i ≠ o.id) :
    (s.set o).get? i = s.get? i := by
  induction s with
  | nil => rfl
  | cons p rest ih =>
    show Store.get? (List.map _ (p :: rest)) i = _
    rw [List.map_cons]
    by_cases hp : p.id = o.id
    · have hoi : ¬ (o.id = i) := fun he => h he.symm
      have hpi : ¬ (p.id = i) := by
        rw [hp]
        exact hoi
      rw [if_pos hp, Store.get?, List.find?_cons_of_neg _ (by simpa using hoi),
        Store.get?, List.find?_cons_of_neg _ (by simpa using hpi)]
      exact ih
    · rw [if_neg hp]
      by_cases hpi : p.id = i
      · rw [Store.get?, List.find?_cons_of_pos _ (by simpa using hpi),
          Store.get?, List.find?_cons_of_pos _ (by simpa using hpi)]
      · rw [Store.get?, List.find?_cons_of_neg _ (by simpa using hpi),
          Store.get?, List.find?_cons_of_neg _ (by simpa using hpi)]
        exact ih

theorem Store.get?_set_eq (s : Store) (o : Order) (i : Nat) (hi : o.id = i)
    (o0 : Order) (h : s.get? i = some o0) : (s.set o).get? i = some o := by
  subst hi
  exact Store.get?_set_same s o o0 h

theorem Order.try_fill_true (o : Order) (q : Int) (h : ¬ o.remaining_quantity < q) :
    o.try_fill q =
      ({ o with
          remaining_quantity := o.remaining_quantity - q,
          filled_quantity := o.filled_quantity + q,
          state := if o.remaining_quantity - q = 0 then .filled else .partiallyFilled },
        true) := by
  rw [Order.try_fill, if_neg h]

theorem Order.try_fill_false (o : Order) (q : Int) (h : o.remaining_quantity < q) :
    o.try_fill q = (o, false) := by
  rw [Order.try_fill, if_pos h]

theorem Order.try_fill_cases (o : Order) (q : Int) :
    ((o.try_fill q).2 = true
      ∧ (o.try_fill q).1.filled_quantity = o.filled_quantity + q
      ∧ (o.try_fill q).1.remaining_quantity = o.remaining_quantity - q
      ∧ (o.try_fill q).1.id = o.id)
    ∨ ((o.try_fill q).2 = false ∧ (o.try_fill q).1 = o
        ∧ o.remaining_quantity < q) := by
  by_cases h : o.remaining_quantity < q
  · right
    rw [Order.try_fill_false o q h]
    exact ⟨rfl, rfl, h⟩
  · left
    rw [Order.try_fill_true o q h]
    exact ⟨rfl, rfl, rfl, rfl⟩

theorem Order.try_fill_snd_true (o : Order) (q : Int) (h : q ≤ o.remaining_quantity) :
    (o.try_fill q).2 = true := by
  rw [Order.try_fill_true o q (not_lt.mpr h)]

/-- Effect of a successful heap fill on recorded filled quantities: the
target's filled quantity increases by exactly the filled amount; every
other id is untouched. -/
theorem Store.try_fill_filledOf (s : Store) (i : Nat) (q : Int) :
    ((s.try_fill i q).2 = true →
      ∀ m, (s.try_fill i q).1.filledOf m
        = s.filledOf m + (if m = i then q else 0))
    ∧ ((s.try_fill i q).2 = false → (s.try_fill i q).1 = s) := by
  constructor
  · intro hok m
    unfold Store.try_fill at hok ⊢
    cases hg : s.get? i with
    | none => simp [hg] at hok
    | some o =>
      simp only [hg] at hok ⊢
      rcases Order.try_fill_cases o q with ⟨h2, hf, _, hid⟩ | ⟨h2, _, _⟩
      · have hoid : o.id = i := Store.get?_id s i o hg
        simp only [h2, eq_self_iff_true, if_true]
        by_cases hm : m = i
        · subst hm
          have hset : (s.set (o.try_fill q).1).get? m = some (o.try_fill q).1 :=
            Store.get?_set_eq s _ m (by rw [hid, hoid]) o hg
          rw [Store.filledOf, hset]
          show (o.try_fill q).1.filled_quantity = s.filledOf m + _
          rw [hf, if_pos rfl, Store.filledOf, hg]
        · have hset : (s.set (o.try_fill q).1).get? m = s.get? m := by
            apply Store.get?_set_other
            rw [hid, hoid]
            exact hm
          rw [Store.filledOf, hset, if_neg hm, add_zero]
          rfl
      · rw [h2] at hok
        exact absurd hok (by decide)
  · intro hfail
    unfold Store.try_fill at hfail ⊢
    cases hg : s.get? i with
    | none => simp [hg]
    | some o =>
      simp only [hg] at hfail ⊢
      rw [hfail]
      simp

/-- Sum of the executed quantities of a trade list. -/
def sumQ (l : List Trade) : Int := (l.map (·.quantity)).sum

/-- Sum of the executed quantities of the trades whose maker is `m`. -/
def makerSum (m : Nat) (l : List Trade) : Int :=
  ((l.filter (fun t => t.maker_order_id = m)).map (·.quantity)).sum

/-- The trades carried by a batch of events. -/
def tradesOf (evs : List OrderEvent) : List Trade :=
  evs.filterMap (fun ev =>
    match ev with
    | .orderMatched t => some t
    | _ => none)

theorem sumQ_append (a b : List Trade) : sumQ (a ++ b) = sumQ a + sumQ b := by
  simp [sumQ]

theorem sumQ_singleton (t : Trade) : sumQ [t] = t.quantity := by
  simp [sumQ]

theorem makerSum_append (m : Nat) (a b : List Trade) :
    makerSum m (a ++ b) = makerSum m a + makerSum m b := by
  simp [makerSum]

theorem makerSum_singleton (m : Nat) (t : Trade) :
    makerSum m [t] = if t.maker_order_id = m then t.quantity else 0 := by
  by_cases h : t.maker_order_id = m <;> simp [makerSum, h]

theorem tradesOf_append (a b : List OrderEvent) :
    tradesOf (a ++ b) = tradesOf a ++ tradesOf b := by
  simp [tradesOf]

theorem tradesOf_matched (ts : List Trade) :
    tradesOf (ts.map (fun t => OrderEvent.orderMatched t)) = ts := by
  induction ts with
  | nil => rfl
  | cons t rest ih => simpa [tradesOf] using ih

theorem Store.filledOf_append_ne (s : Store) (o : Order) (m : Nat) (h : m ≠ o.id) :
    Store.filledOf (s ++ [o]) m = s.filledOf m := by
  unfold Store.filledOf Store.get?
  rw [List.find?_append]
  cases hf : List.find? (fun p => p.id = m) s with
  | some p => simp
  | none =>
    simp only [Option.none_or]
    have : (decide (o.id = m)) = false := by
      simp [decide_eq_false_iff_not]
      exact fun he => h he.symm
    simp [List.find?, this]

/-- Conservation through the FIFO pop loop: the quantities of the trades
added by the loop equal the increase of the taker's filled quantity, and,
for every id `m`, the quantities of the added trades with maker `m` equal
the increase of `m`'s filled quantity in the heap. -/
theorem pt_pop_loop_conservation :
    ∀ (queue : List Nat) (store : Store) (taker : Order) (total : Int)
      (trades : List Trade) (out : Store × Order × List Nat × Int × List Trade),
      pt_pop_loop store taker queue total trades = some out →
      (sumQ out.2.2.2.2 - sumQ trades
          = out.2.1.filled_quantity - taker.filled_quantity)
      ∧ (∀ m, makerSum m out.2.2.2.2 - makerSum m trades
          = out.1.filledOf m - store.filledOf m) := by
  intro queue
  induction queue with
  | nil =>
    intro store taker total trades out h
    rw [pt_pop_loop] at h
    simp only [Option.some.injEq] at h
    subst h
    refine ⟨by ring, fun m => by ring⟩
  | cons mid rest ih =>
    intro store taker total trades out h
    rw [pt_pop_loop] at h
    cases hg : store.get? mid with
    | none =>
      rw [hg] at h
      exact ih store taker total trades out h
    | some maker =>
      rw [hg] at h
      simp only at h
      by_cases hz : maker.remaining_quantity = 0
      · rw [if_pos hz] at h
        exact ih store taker total trades out h
      · rw [if_neg hz] at h
        set q := min taker.remaining_quantity maker.remaining_quantity with hq
        have hqt : q ≤ taker.remaining_quantity := min_le_left _ _
        by_cases h1 : (store.try_fill mid q).2 = true
        · rw [if_pos h1] at h
          have h2 : (taker.try_fill q).2 = true :=
            Order.try_fill_snd_true taker q hqt
          rw [if_pos h2] at h
          have hfillS := (Store.try_fill_filledOf store mid q).1 h1
          rcases Order.try_fill_cases taker q with ⟨_, htf, htr, _⟩ | ⟨hfalse, _, _⟩
          · cases hp : maker.price with
            | none => rw [hp] at h; cases h
            | some maker_price =>
              rw [hp] at h
              simp only at h
              by_cases hrr : (0 : Int) <
                  (match ((store.try_fill mid q).1).get? mid with
                   | some m => m.remaining_quantity
                   | none => (0 : Int))
              · rw [if_pos hrr] at h
                simp only [Option.some.injEq] at h
                subst h
                refine ⟨?_, ?_⟩
                · simp only [sumQ_append, sumQ_singleton, htf]
                  ring
                · intro m
                  simp only [makerSum_append, makerSum_singleton, hfillS m]
                  by_cases hm : m = mid
                  · subst hm
                    simp only [if_pos rfl]
                    ring
                  · rw [if_neg (fun he => hm he.symm), if_neg hm]
                    ring
              · rw [if_neg hrr] at h
                by_cases hto : (taker.try_fill q).1.remaining_quantity = 0
                · rw [if_pos hto] at h
                  simp only [Option.some.injEq] at h
                  subst h
                  refine ⟨?_, ?_⟩
                  · simp only [sumQ_append, sumQ_singleton, htf]
                    ring
                  · intro m
                    simp only [makerSum_append, makerSum_singleton, hfillS m]
                    by_cases hm : m = mid
                    · subst hm
                      simp only [if_pos rfl]
                      ring
                    · rw [if_neg (fun he => hm he.symm), if_neg hm]
                      ring
                · rw [if_neg hto] at h
                  obtain ⟨ihA, ihB⟩ := ih _ _ _ _ _ h
                  refine ⟨?_, ?_⟩
                  · rw [sumQ_append, sumQ_singleton] at ihA
                    rw [htf] at ihA
                    linarith
                  · intro m
                    have := ihB m
                    rw [makerSum_append, makerSum_singleton] at this
                    rw [hfillS m] at this
                    by_cases hm : m = mid
                    · subst hm
                      simp only [if_pos rfl] at this
                      linarith
                    · rw [if_neg (fun he => hm he.symm)] at this
                      rw [if_neg hm] at this
                      linarith
          · rw [hfalse] at h2
            exact absurd h2 (by decide)
        · rw [if_neg h1] at h
          by_cases ht0 : taker.remaining_quantity = 0
          · rw [if_pos ht0] at h
            simp only [Option.some.injEq] at h
            subst h
            refine ⟨by ring, fun m => by ring⟩
          · rw [if_neg ht0] at h
            exact ih _ _ _ _ _ h

/-- Conservation through the outer price/time match loop (the book writes
do not touch the heap, so only the pop loop matters). -/
theorem pt_match_conservation :
    ∀ (fuel : Nat) (store : Store) (taker : Order) (side : OrderBookSide)
      (trades : List Trade) (out : Store × Order × OrderBookSide × List Trade),
      pt_match fuel store taker side trades = some out →
      (sumQ out.2.2.2 - sumQ trades = out.2.1.filled_quantity - taker.filled_quantity)
      ∧ (∀ m, makerSum m out.2.2.2 - makerSum m trades
          = out.1.filledOf m - store.filledOf m) := by
  intro fuel
  induction fuel with
  | zero =>
    intro store taker side trades out h
    rw [pt_match] at h
    simp only [Option.some.injEq] at h
    subst h
    exact ⟨by ring, fun m => by ring⟩
  | succ f ih =>
    intro store taker side trades out h
    rw [pt_match] at h
    by_cases hr : ¬ (0 < taker.remaining_quantity)
    · rw [if_pos hr] at h
      simp only [Option.some.injEq] at h
      subst h
      exact ⟨by ring, fun m => by ring⟩
    · rw [if_neg hr] at h
      cases hb : side.best_level with
      | none =>
        rw [hb] at h
        simp only [Option.some.injEq] at h
        subst h
        exact ⟨by ring, fun m => by ring⟩
      | some lv =>
        rw [hb] at h
        simp only at h
        by_cases hc : ¬ prices_cross taker lv.price = true
        · rw [if_pos hc] at h
          simp only [Option.some.injEq] at h
          subst h
          exact ⟨by ring, fun m => by ring⟩
        · rw [if_neg hc] at h
          cases hpl : pt_pop_loop store taker lv.orders lv.total_quantity trades with
          | none => rw [hpl] at h; cases h
          | some r =>
            obtain ⟨store2, taker2, queue2, total2, trades2⟩ := r
            rw [hpl] at h
            simp only at h
            obtain ⟨pA, pB⟩ := pt_pop_loop_conservation _ _ _ _ _ _ hpl
            by_cases ht : taker2.remaining_quantity = 0
            · rw [if_pos ht] at h
              simp only [Option.some.injEq] at h
              subst h
              exact ⟨pA, pB⟩
            · rw [if_neg ht] at h
              obtain ⟨iA, iB⟩ := ih _ _ _ _ _ h
              refine ⟨by linarith, fun m => ?_⟩
              have := iB m
              have := pB m
              linarith

/-- Sum of the positive allocation quantities in an allocation list. -/
def posSum (allocs : List (Nat × Int)) : Int :=
  ((allocs.filter (fun p => 0 < p.2)).map (·.2)).sum

theorem posSum_nil : posSum [] = 0 := rfl

theorem posSum_cons (a : Nat × Int) (rest : List (Nat × Int)) :
    posSum (a :: rest) = (if 0 < a.2 then a.2 else 0) + posSum rest := by
  by_cases h : 0 < a.2 <;> simp [posSum, List.filter_cons, h]

theorem posSum_nonneg (allocs : List (Nat × Int)) : 0 ≤ posSum allocs := by
  induction allocs with
  | nil => exact le_refl 0
  | cons a rest ih =>
    rw [posSum_cons]
    by_cases h : 0 < a.2
    · rw [if_pos h]
      linarith
    · rw [if_neg h]
      linarith

theorem posSum_le_sum (allocs : List (Nat × Int))
    (h : ∀ p ∈ allocs, 0 ≤ p.2) :
    posSum allocs ≤ (allocs.map (·.2)).sum := by
  induction allocs with
  | nil => exact le_refl 0
  | cons a rest ih =>
    rw [posSum_cons, List.map_cons, List.sum_cons]
    have hrest := ih (fun p hp => h p (List.mem_cons_of_mem a hp))
    by_cases hp : 0 < a.2
    · rw [if_pos hp]
      linarith
    · rw [if_neg hp]
      have := h a (List.mem_cons_self a rest)
      linarith

/-- Floor division is superadditive: `a/E + b/E ≤ (a+b)/E` for `0 < E`. -/
theorem ediv_add_ediv_le (a b E : Int) (h : 0 < E) : a / E + b / E ≤ (a + b) / E := by
  rw [Int.le_ediv_iff_mul_le h, add_mul]
  have h1 := Int.ediv_mul_le a (ne_of_gt h)
  have h2 := Int.ediv_mul_le b (ne_of_gt h)
  linarith

theorem sum_map_ediv_le (l : List Int) (E : Int) (h : 0 < E) :
    ((l.map (· / E)).sum : Int) ≤ l.sum / E := by
  induction l with
  | nil =>
    simp only [List.map_nil, List.sum_nil]
    exact Int.le_ediv_iff_mul_le h |>.mpr (by simp)
  | cons a rest ih =>
    rw [List.map_cons, List.sum_cons, List.sum_cons]
    calc a / E + (rest.map (· / E)).sum ≤ a / E + rest.sum / E := by linarith
    _ ≤ (a + rest.sum) / E := ediv_add_ediv_le _ _ _ h

theorem pr_drain_elig_lower (minq : Int) (store : Store) :
    ∀ (queue : List Nat), ∀ p ∈ (pr_drain minq store queue).1, minq ≤ p.2 := by
  intro queue
  induction queue with
  | nil => intro p hp; simp [pr_drain] at hp
  | cons i rest ih =>
    intro p hp
    rw [pr_drain] at hp
    cases hg : store.get? i with
    | none =>
      rw [hg] at hp
      exact ih p hp
    | some o =>
      rw [hg] at hp
      simp only at hp
      by_cases he : minq ≤ o.remaining_quantity
      · rw [if_pos he] at hp
        rcases List.mem_cons.mp hp with rfl | hp2
        · exact he
        · exact ih p hp2
      · rw [if_neg he] at hp
        exact ih p hp

theorem pr_drain_total_eq (minq : Int) (store : Store) :
    ∀ (queue : List Nat),
      (pr_drain minq store queue).2.2
        = ((pr_drain minq store queue).1.map (·.2)).sum := by
  intro queue
  induction queue with
  | nil => rfl
  | cons i rest ih =>
    rw [pr_drain]
    cases hg : store.get? i with
    | none => exact ih
    | some o =>
      simp only
      by_cases he : minq ≤ o.remaining_quantity
      · rw [if_pos he]
        simp only [List.map_cons, List.sum_cons]
        rw [ih]
        ring
      · rw [if_neg he]
        exact ih

theorem sum_map_mul_right_list (l : List Int) (b : Int) :
    (l.map (· * b)).sum = l.sum * b := by
  induction l with
  | nil => simp
  | cons a rest ih =>
    simp only [List.map_cons, List.sum_cons, ih]
    ring

theorem bump_head_zero (allocs : List (Nat × Int)) : bump_head allocs 0 = allocs := by
  cases allocs with
  | nil => rfl
  | cons a rest =>
    obtain ⟨i, v⟩ := a
    simp [bump_head]

theorem bump_head_sum (allocs : List (Nat × Int)) (r : Int) (h : allocs ≠ []) :
    ((bump_head allocs r).map (·.2)).sum = (allocs.map (·.2)).sum + r := by
  cases allocs with
  | nil => exact absurd rfl h
  | cons a rest =>
    obtain ⟨i, v⟩ := a
    simp [bump_head]
    ring

/-- Characterization of `calculate_allocation` on a level with positive
eligible total: every eligible order with remaining `r` is allocated the
floor `(r * q) / E` (the `i128` truncating division coincides with the
floor and the `as i64` cast is the identity in this range), the rounding
remainder is added to the first eligible order, and the queue is rebuilt as
the ineligible orders followed by the eligible ones. -/
theorem calculate_allocation_spec (minq : Int) (store : Store) (queue : List Nat)
    (q : Int) (hm : 0 ≤ minq) (hq : 0 ≤ q) (hqMax : q ≤ i64Max)
    (hE : 0 < (pr_drain minq store queue).2.2) :
    calculate_allocation minq store queue q
      = (bump_head
          ((pr_drain minq store queue).1.map
            (fun p => (p.1, (p.2 * q) / (pr_drain minq store queue).2.2)))
          (q - (((pr_drain minq store queue).1.map
            (fun p => (p.2 * q) / (pr_drain minq store queue).2.2)).sum)),
         (pr_drain minq store queue).2.1
           ++ (pr_drain minq store queue).1.map (·.1)) := by
  have hElower := pr_drain_elig_lower minq store queue
  have hEsum := pr_drain_total_eq minq store queue
  set elig := (pr_drain minq store queue).1 with helig
  set E := (pr_drain minq store queue).2.2 with hE'
  have hnonneg : ∀ p ∈ elig, (0 : Int) ≤ p.2 := fun p hp => le_trans hm (hElower p hp)
  have hrle : ∀ p ∈ elig, p.2 ≤ E := by
    intro p hp
    rw [hEsum]
    exact List.single_le_sum (fun x hx => by
        rcases List.mem_map.mp hx with ⟨p2, hp2, rfl⟩
        exact hnonneg p2 hp2) _
      (List.mem_map.mpr ⟨p, hp, rfl⟩)
  have hwrap : ∀ p ∈ elig, wrapI64 ((p.2 * q).tdiv E) = (p.2 * q) / E := by
    intro p hp
    have h0 : (0 : Int) ≤ p.2 * q := mul_nonneg (hnonneg p hp) hq
    have ht : (p.2 * q).tdiv E = (p.2 * q) / E := Int.tdiv_eq_ediv h0 (le_of_lt hE)
    rw [ht]
    apply wrapI64_eq_self
    · calc i64Min ≤ 0 := by decide
      _ ≤ (p.2 * q) / E := Int.ediv_nonneg h0 (le_of_lt hE)
    · calc (p.2 * q) / E ≤ (E * q) / E :=
          Int.ediv_le_ediv hE (mul_le_mul_of_nonneg_right (hrle p hp) hq)
      _ = q := Int.mul_ediv_cancel_left _ (ne_of_gt hE)
      _ ≤ i64Max := hqMax
  have hbase : elig.map (fun p => (p.1, wrapI64 ((p.2 * q).tdiv E)))
      = elig.map (fun p => (p.1, (p.2 * q) / E)) := by
    apply List.map_congr_left
    intro p hp
    rw [hwrap p hp]
  have hEne : elig ≠ [] := by
    intro he
    rw [hEsum, he] at hE
    simp at hE
  have hbaseNe : elig.map (fun p => (p.1, (p.2 * q) / E)) ≠ [] := by
    intro he
    exact hEne (List.map_eq_nil.mp he)
  have hsumle : ((elig.map (fun p => (p.2 * q) / E)).sum : Int) ≤ q := by
    have h1 : elig.map (fun p => (p.2 * q) / E)
        = (elig.map (fun p => p.2 * q)).map (· / E) := by
      rw [List.map_map]
      rfl
    rw [h1]
    calc ((elig.map (fun p => p.2 * q)).map (· / E)).sum
        ≤ (elig.map (fun p => p.2 * q)).sum / E :=
          sum_map_ediv_le _ E hE
      _ = ((elig.map (·.2)).sum * q) / E := by
          have h2 : elig.map (fun p => p.2 * q) = (elig.map (·.2)).map (· * q) := by
            rw [List.map_map]
            rfl
          rw [h2, sum_map_mul_right_list]
      _ = (E * q) / E := by rw [← hEsum]
      _ = q := Int.mul_ediv_cancel_left _ (ne_of_gt hE)
  have hmapsnd : (elig.map (fun p => (p.1, (p.2 * q) / E))).map (·.2)
      = elig.map (fun p => (p.2 * q) / E) := by
    rw [List.map_map]
    rfl
  rw [calculate_allocation]
  simp only [← helig, ← hE']
  rw [if_neg (ne_of_gt hE), hbase, hmapsnd]
  by_cases hrem : 0 < q - (elig.map (fun p => (p.2 * q) / E)).sum
  · rw [if_pos ⟨hrem, hbaseNe⟩]
  · rw [if_neg (fun hand => hrem hand.1)]
    have : q - (elig.map (fun p => (p.2 * q) / E)).sum = 0 := by
      have := hsumle
      omega
    rw [this, bump_head_zero]

theorem bump_head_mem_nonneg (allocs : List (Nat × Int)) (r : Int)
    (h : ∀ p ∈ allocs, 0 ≤ p.2) (hr : 0 ≤ r) :
    ∀ p ∈ bump_head allocs r, 0 ≤ p.2 := by
  cases allocs with
  | nil => intro p hp; simp [bump_head] at hp
  | cons a rest =>
    obtain ⟨i, v⟩ := a
    intro p hp
    simp only [bump_head, List.mem_cons] at hp
    rcases hp with rfl | hp
    · have := h (i, v) (List.mem_cons_self _ _)
      simp only at this ⊢
      linarith
    · exact h p (List.mem_cons_of_mem _ hp)

/-- Every allocation computed by `calculate_allocation` is nonnegative and
their sum does not exceed the quantity to fill. -/
theorem calculate_allocation_bounds (minq : Int) (store : Store) (queue : List Nat)
    (q : Int) (hm : 0 ≤ minq) (hq : 0 ≤ q) (hqMax : q ≤ i64Max) :
    (∀ p ∈ (calculate_allocation minq store queue q).1, 0 ≤ p.2)
    ∧ ((calculate_allocation minq store queue q).1.map (·.2)).sum ≤ q := by
  have hElower := pr_drain_elig_lower minq store queue
  have hEsum := pr_drain_total_eq minq store queue
  have hnonneg : ∀ p ∈ (pr_drain minq store queue).1, (0 : Int) ≤ p.2 :=
    fun p hp => le_trans hm (hElower p hp)
  have hEnonneg : 0 ≤ (pr_drain minq store queue).2.2 := by
    rw [hEsum]
    apply List.sum_nonneg
    intro x hx
    rcases List.mem_map.mp hx with ⟨p, hp, rfl⟩
    exact hnonneg p hp
  by_cases hE0 : (pr_drain minq store queue).2.2 = 0
  · rw [calculate_allocation]
    simp only
    rw [if_pos hE0]
    exact ⟨fun p hp => by simp at hp, by simp; exact hq⟩
  · have hE : 0 < (pr_drain minq store queue).2.2 :=
      lt_of_le_of_ne hEnonneg (fun he => hE0 he.symm)
    rw [calculate_allocation_spec minq store queue q hm hq hqMax hE]
    simp only
    set elig := (pr_drain minq store queue).1 with helig
    set E := (pr_drain minq store queue).2.2 with hE'
    set base := elig.map (fun p => (p.1, (p.2 * q) / E)) with hbase
    have hmapsnd : base.map (·.2) = elig.map (fun p => (p.2 * q) / E) := by
      rw [hbase, List.map_map]
      rfl
    have hbnonneg : ∀ p ∈ base, (0 : Int) ≤ p.2 := by
      intro p hp
      rcases List.mem_map.mp hp with ⟨p0, hp0, rfl⟩
      exact Int.ediv_nonneg (mul_nonneg (hnonneg p0 hp0) hq) (le_of_lt hE)
    have hEne : elig ≠ [] := by
      intro he
      rw [hEsum, he] at hE
      simp at hE
    have hbaseNe : base ≠ [] := fun he => hEne (List.map_eq_nil.mp he)
    have hsumle : (base.map (·.2)).sum ≤ q := by
      rw [hmapsnd]
      have h1 : elig.map (fun p => (p.2 * q) / E)
          = (elig.map (fun p => p.2 * q)).map (· / E) := by
        rw [List.map_map]
        rfl
      rw [h1]
      calc ((elig.map (fun p => p.2 * q)).map (· / E)).sum
          ≤ (elig.map (fun p => p.2 * q)).sum / E := sum_map_ediv_le _ E hE
        _ = ((elig.map (·.2)).sum * q) / E := by
            have h2 : elig.map (fun p => p.2 * q) = (elig.map (·.2)).map (· * q) := by
              rw [List.map_map]
              rfl
            rw [h2, sum_map_mul_right_list]
        _ = (E * q) / E := by rw [← hEsum]
        _ = q := Int.mul_ediv_cancel_left _ (ne_of_gt hE)
    have hrem : 0 ≤ q - (elig.map (fun p => (p.2 * q) / E)).sum := by
      rw [← hmapsnd]
      linarith
    have hrem2 : 0 ≤ q - (base.map (·.2)).sum := by
      rw [hmapsnd]
      exact hrem
    rw [← hmapsnd]
    constructor
    · intro p hp
      exact bump_head_mem_nonneg base _ hbnonneg hrem2 p hp
    · rw [bump_head_sum base _ hbaseNe]
      linarith

theorem posSum_cons_pair (i : Nat) (v : Int) (rest : List (Nat × Int)) :
    posSum ((i, v) :: rest) = (if 0 < v then v else 0) + posSum rest :=
  posSum_cons (i, v) rest

/-- Conservation through the pro-rata allocation execution loop, under the
guarantee (provided by `calculate_allocation`) that the positive
allocations sum to at most the taker's remaining quantity: the quantities
of the added trades equal the increase of the taker's filled quantity,
per-maker trade quantities equal each heap order's filled increase, and
the taker's remaining quantity does not grow. -/
theorem pr_exec_conservation :
    ∀ (allocs : List (Nat × Int)) (store : Store) (taker : Order)
      (queue : List Nat) (total : Int) (trades : List Trade)
      (out : Store × Order × List Nat × Int × List Trade),
      posSum allocs ≤ taker.remaining_quantity →
      pr_exec allocs store taker queue total trades = some out →
      (sumQ out.2.2.2.2 - sumQ trades
          = out.2.1.filled_quantity - taker.filled_quantity)
      ∧ (∀ m, makerSum m out.2.2.2.2 - makerSum m trades
          = out.1.filledOf m - store.filledOf m)
      ∧ out.2.1.remaining_quantity ≤ taker.remaining_quantity := by
  intro allocs
  induction allocs with
  | nil =>
    intro store taker queue total trades out hpos h
    rw [pr_exec] at h
    simp only [Option.some.injEq] at h
    subst h
    exact ⟨by ring, fun m => by ring, le_refl _⟩
  | cons a restAllocs ih =>
    obtain ⟨order_id, allocated_qty⟩ := a
    intro store taker queue total trades out hpos h
    rw [pr_exec] at h
    by_cases hneg : allocated_qty ≤ 0
    · rw [if_pos hneg] at h
      have hposRest : posSum restAllocs ≤ taker.remaining_quantity := by
        rw [posSum_cons_pair, if_neg (not_lt.mpr hneg)] at hpos
        linarith
      exact ih store taker queue total trades out hposRest h
    · rw [if_neg hneg] at h
      have ha : 0 < allocated_qty := not_le.mp hneg
      have hposS : allocated_qty + posSum restAllocs ≤ taker.remaining_quantity := by
        rw [posSum_cons_pair, if_pos ha] at hpos
        exact hpos
      have hposRest0 : 0 ≤ posSum restAllocs := posSum_nonneg restAllocs
      simp only at h
      by_cases hfind : (seg_find order_id queue []).1 = true
      · rw [if_pos hfind] at h
        cases hg : store.get? order_id with
        | none =>
          rw [hg] at h
          simp only at h
          by_cases ht0 : taker.remaining_quantity = 0
          · rw [if_pos ht0] at h
            simp only [Option.some.injEq] at h
            subst h
            exact ⟨by ring, fun m => by ring, le_refl _⟩
          · rw [if_neg ht0] at h
            exact ih _ _ _ _ _ _ (by linarith) h
        | some maker =>
          rw [hg] at h
          simp only at h
          set tq := min allocated_qty maker.remaining_quantity with htqdef
          have htqa : tq ≤ allocated_qty := min_le_left _ _
          have htqr : tq ≤ taker.remaining_quantity := by linarith
          by_cases htq : 0 < tq
          · rw [if_pos htq] at h
            by_cases h1 : (store.try_fill order_id tq).2 = true
            · rw [if_pos h1] at h
              have h2 : (taker.try_fill tq).2 = true :=
                Order.try_fill_snd_true taker tq htqr
              rw [if_pos h2] at h
              have hfillS := (Store.try_fill_filledOf store order_id tq).1 h1
              rcases Order.try_fill_cases taker tq with
                ⟨_, htf, htr, _⟩ | ⟨hfalse, _, _⟩
              · cases hp : maker.price with
                | none => rw [hp] at h; cases h
                | some maker_price =>
                  rw [hp] at h
                  simp only at h
                  by_cases hto : (taker.try_fill tq).1.remaining_quantity = 0
                  · rw [if_pos hto] at h
                    simp only [Option.some.injEq] at h
                    subst h
                    refine ⟨?_, ?_, ?_⟩
                    · simp only [sumQ_append, sumQ_singleton, htf]
                      ring
                    · intro m
                      simp only [makerSum_append, makerSum_singleton, hfillS m]
                      by_cases hm : m = order_id
                      · subst hm
                        simp only [if_pos rfl]
                        ring
                      · rw [if_neg (fun he => hm he.symm), if_neg hm]
                        ring
                    · rw [htr]
                      linarith
                  · rw [if_neg hto] at h
                    have hposR : posSum restAllocs
                        ≤ (taker.try_fill tq).1.remaining_quantity := by
                      rw [htr]
                      linarith
                    obtain ⟨iA, iB, iC⟩ := ih _ _ _ _ _ _ hposR h
                    refine ⟨?_, ?_, ?_⟩
                    · rw [sumQ_append, sumQ_singleton] at iA
                      rw [htf] at iA
                      linarith
                    · intro m
                      have := iB m
                      rw [makerSum_append, makerSum_singleton] at this
                      rw [hfillS m] at this
                      by_cases hm : m = order_id
                      · subst hm
                        simp only [if_pos rfl] at this
                        linarith
                      · rw [if_neg (fun he => hm he.symm)] at this
                        rw [if_neg hm] at this
                        linarith
                    · rw [htr] at iC
                      linarith
              · rw [hfalse] at h2
                exact absurd h2 (by decide)
            · rw [if_neg h1] at h
              by_cases ht0 : taker.remaining_quantity = 0
              · rw [if_pos ht0] at h
                simp only [Option.some.injEq] at h
                subst h
                exact ⟨by ring, fun m => by ring, le_refl _⟩
              · rw [if_neg ht0] at h
                exact ih _ _ _ _ _ _ (by linarith) h
          · rw [if_neg htq] at h
            by_cases ht0 : taker.remaining_quantity = 0
            · rw [if_pos ht0] at h
              simp only [Option.some.injEq] at h
              subst h
              exact ⟨by ring, fun m => by ring, le_refl _⟩
            · rw [if_neg ht0] at h
              exact ih _ _ _ _ _ _ (by linarith) h
      · rw [if_neg hfind] at h
        simp only at h
        by_cases ht0 : taker.remaining_quantity = 0
        · rw [if_pos ht0] at h
          simp only [Option.some.injEq] at h
          subst h
          exact ⟨by ring, fun m => by ring, le_refl _⟩
        · rw [if_neg ht0] at h
          exact ih _ _ _ _ _ _ (by linarith) h

/-- Conservation through the outer pro-rata match loop: for a nonnegative
minimum quantity and a taker whose remaining quantity fits in `i64`, the
quantities of the trades added by the loop equal the increase of the
taker's filled quantity, and per maker they equal the maker's filled
increase in the heap. -/
theorem pr_match_conservation :
    ∀ (fuel : Nat) (minq : Int) (store : Store) (taker : Order)
      (side : OrderBookSide) (trades : List Trade)
      (out : Store × Order × OrderBookSide × List Trade),
      0 ≤ minq → taker.remaining_quantity ≤ i64Max →
      pr_match fuel minq store taker side trades = some out →
      (sumQ out.2.2.2 - sumQ trades = out.2.1.filled_quantity - taker.filled_quantity)
      ∧ (∀ m, makerSum m out.2.2.2 - makerSum m trades
          = out.1.filledOf m - store.filledOf m) := by
  intro fuel
  induction fuel with
  | zero =>
    intro minq store taker side trades out hm hmax h
    rw [pr_match] at h
    simp only [Option.some.injEq] at h
    subst h
    exact ⟨by ring, fun m => by ring⟩
  | succ f ih =>
    intro minq store taker side trades out hm hmax h
    rw [pr_match] at h
    by_cases hr : ¬ (0 < taker.remaining_quantity)
    · rw [if_pos hr] at h
      simp only [Option.some.injEq] at h
      subst h
      exact ⟨by ring, fun m => by ring⟩
    · rw [if_neg hr] at h
      have hr' : 0 < taker.remaining_quantity := not_not.mp hr
      cases hb : side.best_level with
      | none =>
        rw [hb] at h
        simp only [Option.some.injEq] at h
        subst h
        exact ⟨by ring, fun m => by ring⟩
      | some lv =>
        rw [hb] at h
        simp only at h
        by_cases hc : ¬ prices_cross taker lv.price = true
        · rw [if_pos hc] at h
          simp only [Option.some.injEq] at h
          subst h
          exact ⟨by ring, fun m => by ring⟩
        · rw [if_neg hc] at h
          by_cases hc1 :
              (calculate_allocation minq store lv.orders taker.remaining_quantity).1
                = []
          · rw [if_pos hc1] at h
            simp only [Option.some.injEq] at h
            subst h
            exact ⟨by ring, fun m => by ring⟩
          · rw [if_neg hc1] at h
            cases hpe : pr_exec
                (calculate_allocation minq store lv.orders taker.remaining_quantity).1
                store taker
                (calculate_allocation minq store lv.orders taker.remaining_quantity).2
                lv.total_quantity trades with
            | none => rw [hpe] at h; cases h
            | some r =>
              obtain ⟨store2, taker2, queue2, total2, trades2⟩ := r
              rw [hpe] at h
              simp only at h
              have hbounds := calculate_allocation_bounds minq store lv.orders
                taker.remaining_quantity hm (le_of_lt hr') hmax
              have hpos : posSum
                  (calculate_allocation minq store lv.orders
                    taker.remaining_quantity).1 ≤ taker.remaining_quantity :=
                le_trans (posSum_le_sum _ hbounds.1) hbounds.2
              obtain ⟨pA, pB, pC⟩ := pr_exec_conservation _ _ _ _ _ _ _ hpos hpe
              by_cases hsame : taker2.remaining_quantity = taker.remaining_quantity
              · rw [if_pos hsame] at h
                simp only [Option.some.injEq] at h
                subst h
                exact ⟨pA, pB⟩
              · rw [if_neg hsame] at h
                obtain ⟨iA, iB⟩ := ih _ _ _ _ _ _ hm (le_trans pC hmax) h
                refine ⟨by linarith, fun m => ?_⟩
                have := iB m
                have := pB m
                linarith

theorem sumQ_nil : sumQ [] = 0 := rfl

theorem makerSum_nil (m : Nat) : makerSum m [] = 0 := rfl

theorem Order.try_fill_id (o : Order) (q : Int) : (o.try_fill q).1.id = o.id := by
  rw [Order.try_fill]
  split <;> rfl

/-- The FIFO pop loop never changes the taker's id. -/
theorem pt_pop_loop_taker_id :
    ∀ (queue : List Nat) (store : Store) (taker : Order) (total : Int)
      (trades : List Trade) (out : Store × Order × List Nat × Int × List Trade),
      pt_pop_loop store taker queue total trades = some out →
      out.2.1.id = taker.id := by
  intro queue
  induction queue with
  | nil =>
    intro store taker total trades out h
    rw [pt_pop_loop] at h
    simp only [Option.some.injEq] at h
    subst h
    rfl
  | cons mid rest ih =>
    intro store taker total trades out h
    rw [pt_pop_loop] at h
    cases hg : store.get? mid with
    | none => rw [hg] at h; exact ih _ _ _ _ _ h
    | some maker =>
      rw [hg] at h
      simp only at h
      repeat' split at h
      all_goals first
        | exact ih _ _ _ _ _ h
        | exact (ih _ _ _ _ _ h).trans (Order.try_fill_id taker _)
        | (simp only [Option.some.injEq] at h; subst h;
            first | rfl | exact Order.try_fill_id taker _)
        | cases h

/-- The outer price/time loop never changes the taker's id. -/
theorem pt_match_taker_id :
    ∀ (fuel : Nat) (store : Store) (taker : Order) (side : OrderBookSide)
      (trades : List Trade) (out : Store × Order × OrderBookSide × List Trade),
      pt_match fuel store taker side trades = some out → out.2.1.id = taker.id := by
  intro fuel
  induction fuel with
  | zero =>
    intro store taker side trades out h
    rw [pt_match] at h
    simp only [Option.some.injEq] at h
    subst h
    rfl
  | succ f ih =>
    intro store taker side trades out h
    rw [pt_match] at h
    by_cases hr : ¬ (0 < taker.remaining_quantity)
    · rw [if_pos hr] at h
      simp only [Option.some.injEq] at h
      subst h
      rfl
    · rw [if_neg hr] at h
      cases hb : side.best_level with
      | none =>
        rw [hb] at h
        simp only [Option.some.injEq] at h
        subst h
        rfl
      | some lv =>
        rw [hb] at h
        simp only at h
        by_cases hc : ¬ prices_cross taker lv.price = true
        · rw [if_pos hc] at h
          simp only [Option.some.injEq] at h
          subst h
          rfl
        · rw [if_neg hc] at h
          cases hpl : pt_pop_loop store taker lv.orders lv.total_quantity trades with
          | none => rw [hpl] at h; cases h
          | some r =>
            obtain ⟨store2, taker2, queue2, total2, trades2⟩ := r
            rw [hpl] at h
            simp only at h
            have hid := pt_pop_loop_taker_id _ _ _ _ _ _ hpl
            by_cases ht : taker2.remaining_quantity = 0
            · rw [if_pos ht] at h
              simp only [Option.some.injEq] at h
              subst h
              exact hid
            · rw [if_neg ht] at h
              exact (ih _ _ _ _ _ h).trans hid

/-- The pro-rata allocation execution loop never changes the taker's id. -/
theorem pr_exec_taker_id :
    ∀ (allocs : List (Nat × Int)) (store : Store) (taker : Order)
      (queue : List Nat) (total : Int) (trades : List Trade)
      (out : Store × Order × List Nat × Int × List Trade),
      pr_exec allocs store taker queue total trades = some out →
      out.2.1.id = taker.id := by
  intro allocs
  induction allocs with
  | nil =>
    intro store taker queue total trades out h
    rw [pr_exec] at h
    simp only [Option.some.injEq] at h
    subst h
    rfl
  | cons a restAllocs ih =>
    obtain ⟨order_id, allocated_qty⟩ := a
    intro store taker queue total trades out h
    rw [pr_exec] at h
    simp only at h
    repeat' split at h
    all_goals first
      | exact ih _ _ _ _ _ _ h
      | exact (ih _ _ _ _ _ _ h).trans (Order.try_fill_id taker _)
      | (simp only [Option.some.injEq] at h; subst h;
          first | rfl | exact Order.try_fill_id taker _)
      | cases h

/-- The outer pro-rata loop never changes the taker's id. -/
theorem pr_match_taker_id :
    ∀ (fuel : Nat) (minq : Int) (store : Store) (taker : Order)
      (side : OrderBookSide) (trades : List Trade)
      (out : Store × Order × OrderBookSide × List Trade),
      pr_match fuel minq store taker side trades = some out →
      out.2.1.id = taker.id := by
  intro fuel
  induction fuel with
  | zero =>
    intro minq store taker side trades out h
    rw [pr_match] at h
    simp only [Option.some.injEq] at h
    subst h
    rfl
  | succ f ih =>
    intro minq store taker side trades out h
    rw [pr_match] at h
    by_cases hr : ¬ (0 < taker.remaining_quantity)
    · rw [if_pos hr] at h
      simp only [Option.some.injEq] at h
      subst h
      rfl
    · rw [if_neg hr] at h
      cases hb : side.best_level with
      | none =>
        rw [hb] at h
        simp only [Option.some.injEq] at h
        subst h
        rfl
      | some lv =>
        rw [hb] at h
        simp only at h
        by_cases hc : ¬ prices_cross taker lv.price = true
        · rw [if_pos hc] at h
          simp only [Option.some.injEq] at h
          subst h
          rfl
        · rw [if_neg hc] at h
          by_cases hc1 :
              (calculate_allocation minq store lv.orders taker.remaining_quantity).1
                = []
          · rw [if_pos hc1] at h
            simp only [Option.some.injEq] at h
            subst h
            rfl
          · rw [if_neg hc1] at h
            cases hpe : pr_exec
                (calculate_allocation minq store lv.orders taker.remaining_quantity).1
                store taker
                (calculate_allocation minq store lv.orders taker.remaining_quantity).2
                lv.total_quantity trades with
            | none => rw [hpe] at h; cases h
            | some r =>
              obtain ⟨store2, taker2, queue2, total2, trades2⟩ := r
              rw [hpe] at h
              simp only at h
              have hid := pr_exec_taker_id _ _ _ _ _ _ _ hpe
              by_cases hsame : taker2.remaining_quantity = taker.remaining_quantity
              · rw [if_pos hsame] at h
                simp only [Option.some.injEq] at h
                subst h
                exact hid
              · rw [if_neg hsame] at h
                exact (ih _ _ _ _ _ _ h).trans hid

/-- The minimum pro-rata quantity carried by an algorithm configuration
(zero for price/time, which imposes none). -/
def minqOf : MatchingAlgorithmType → Int
  | .priceTime _ => 0
  | .proRata minq _ => minq

/-- Conservation through either configured algorithm, for a nonnegative
configured minimum quantity and a taker remaining quantity within `i64`
range. -/
theorem run_algorithm_conservation (fuel : Nat) (alg : MatchingAlgorithmType)
    (store : Store) (taker : Order) (opp : OrderBookSide)
    (out : Store × Order × OrderBookSide × List Trade)
    (hm : 0 ≤ minqOf alg) (hmax : taker.remaining_quantity ≤ i64Max)
    (h : run_algorithm fuel alg store taker opp = some out) :
    (sumQ out.2.2.2 = out.2.1.filled_quantity - taker.filled_quantity)
    ∧ (∀ m, makerSum m out.2.2.2 = out.1.filledOf m - store.filledOf m)
    ∧ out.2.1.id = taker.id := by
  cases alg with
  | priceTime s =>
    rw [run_algorithm] at h
    obtain ⟨a, b⟩ := pt_match_conservation fuel store taker opp [] out h
    rw [sumQ_nil, sub_zero] at a
    refine ⟨a, fun m => ?_, pt_match_taker_id _ _ _ _ _ _ h⟩
    have := b m
    rw [makerSum_nil, sub_zero] at this
    exact this
  | proRata minq t =>
    rw [run_algorithm] at h
    obtain ⟨a, b⟩ := pr_match_conservation fuel minq store taker opp [] out hm hmax h
    rw [sumQ_nil, sub_zero] at a
    refine ⟨a, fun m => ?_, pr_match_taker_id _ _ _ _ _ _ _ h⟩
    have := b m
    rw [makerSum_nil, sub_zero] at this
    exact this

theorem tradesOf_single_received (i : Nat) :
    tradesOf [OrderEvent.orderReceived i] = [] := rfl

theorem tradesOf_single_accepted (i : Nat) :
    tradesOf [OrderEvent.orderAccepted i] = [] := rfl

theorem tradesOf_single_filled (i : Nat) (q : Int) :
    tradesOf [OrderEvent.orderFilled i q] = [] := rfl

theorem tradesOf_single_partial (i : Nat) (a b : Int) :
    tradesOf [OrderEvent.orderPartiallyFilled i a b] = [] := rfl

theorem tradesOf_single_added (i : Nat) (p q : Int) :
    tradesOf [OrderEvent.orderAddedToBook i p q] = [] := rfl

theorem tradesOf_single_cancelled (i : Nat) :
    tradesOf [OrderEvent.orderCancelled i] = [] := rfl

/-- `add_to_book` appends the order to the heap. -/
theorem MatchingEngine.add_to_book_store (e : MatchingEngine) (o : Order)
    (e3 : MatchingEngine) (h : e.add_to_book o = some e3) :
    e3.store = e.store ++ [o] := by
  rw [MatchingEngine.add_to_book] at h
  repeat' split at h
  all_goals first
    | (simp only [Option.some.injEq] at h; subst h; rfl)
    | cases h

/-- C2: under single-threaded execution (no interleaved taker — the
embedding's sequential semantics), every completed `submit_order` call
conserves quantity: the sum of the produced trade quantities equals the
taker's filled-quantity increase, and, for every maker id other than the
submitted order's, the sum of quantities of the trades with that maker
equals the increase of that order's filled quantity in the heap.  The
hypotheses are the engine's configured pro-rata minimum quantity being
nonnegative (enforced by `OrderBookConfig::validate`) and the order's
remaining quantity being within `i64` range (always true of raw `i64`
quantities). -/
theorem C2_submit_conservation (fuel : Nat) (e : MatchingEngine) (order : Order)
    (out : MatchingEngine × Order × List OrderEvent)
    (hm : 0 ≤ minqOf e.algorithm)
    (hmax : order.remaining_quantity ≤ i64Max)
    (h : e.submit_order fuel order = some out) :
    sumQ (tradesOf out.2.2) = out.2.1.filled_quantity - order.filled_quantity
    ∧ ∀ m, m ≠ order.id →
        makerSum m (tradesOf out.2.2)
          = out.1.store.filledOf m - e.store.filledOf m := by
  rw [MatchingEngine.submit_order] at h
  cases hv : validate_order order with
  | some reason =>
    rw [hv] at h
    simp only at h
    simp only [Option.some.injEq] at h
    subst h
    refine ⟨?_, fun m hmne => ?_⟩
    · simp [tradesOf, sumQ]
    · simp [tradesOf, makerSum]
  | none =>
    rw [hv] at h
    simp only at h
    cases hside : order.side with
    | buy =>
      rw [hside] at h
      simp only at h
      split at h
      · cases h
      · rename_i store2 taker2 opp2 trades hra
        obtain ⟨cA, cB, cid⟩ :=
          run_algorithm_conservation fuel e.algorithm e.store _ _ _ hm
            (by exact hmax) hra
        have cA' : sumQ trades = taker2.filled_quantity - order.filled_quantity := cA
        have cB' : ∀ m, makerSum m trades
            = store2.filledOf m - e.store.filledOf m := cB
        have cid' : taker2.id = order.id := cid
        by_cases hfull : taker2.remaining_quantity = 0 ∧ 0 < taker2.filled_quantity
        · rw [if_pos hfull] at h
          simp only [Option.some.injEq] at h
          subst h
          refine ⟨?_, fun m hmne => ?_⟩
          · simp only [tradesOf_append, tradesOf_matched, tradesOf_single_received,
              tradesOf_single_accepted, tradesOf_single_filled,
              List.append_nil, List.nil_append]
            exact cA'
          · simp only [tradesOf_append, tradesOf_matched, tradesOf_single_received,
              tradesOf_single_accepted, tradesOf_single_filled,
              List.append_nil, List.nil_append]
            exact cB' m
        · rw [if_neg hfull] at h
          by_cases hpart : 0 < taker2.filled_quantity
          · rw [if_pos hpart] at h
            cases htif : order.time_in_force with
            | goodTillCancel =>
              rw [htif] at h
              simp only at h
              split at h
              · cases h
              · rename_i e3 hab
                split at h
                · cases h
                · rename_i p hp
                  simp only [Option.some.injEq] at h
                  subst h
                  have hst : e3.store = store2 ++ [taker2] :=
                    (MatchingEngine.add_to_book_store _ _ _ hab).trans rfl
                  refine ⟨?_, fun m hmne => ?_⟩
                  · simp only [tradesOf_append, tradesOf_matched,
                      tradesOf_single_received, tradesOf_single_accepted,
                      tradesOf_single_partial, tradesOf_single_added,
                      List.append_nil, List.nil_append]
                    exact cA'
                  · have hm2 : m ≠ taker2.id := by rw [cid']; exact hmne
                    simp only [tradesOf_append, tradesOf_matched,
                      tradesOf_single_received, tradesOf_single_accepted,
                      tradesOf_single_partial, tradesOf_single_added,
                      List.append_nil, List.nil_append]
                    rw [hst, Store.filledOf_append_ne store2 taker2 m hm2]
                    exact cB' m
            | immediateOrCancel =>
              rw [htif] at h
              simp only [Option.some.injEq] at h
              subst h
              refine ⟨?_, fun m hmne => ?_⟩
              · simp only [tradesOf_append, tradesOf_matched,
                  tradesOf_single_received, tradesOf_single_accepted,
                  tradesOf_single_partial, tradesOf_single_cancelled,
                  List.append_nil, List.nil_append]
                exact cA'
              · simp only [tradesOf_append, tradesOf_matched,
                  tradesOf_single_received, tradesOf_single_accepted,
                  tradesOf_single_partial, tradesOf_single_cancelled,
                  List.append_nil, List.nil_append]
                exact cB' m
            | fillOrKill =>
              rw [htif] at h
              simp only [Option.some.injEq] at h
              subst h
              refine ⟨?_, fun m hmne => ?_⟩
              · simp only [tradesOf_append, tradesOf_matched,
                  tradesOf_single_received, tradesOf_single_accepted,
                  tradesOf_single_partial, tradesOf_single_cancelled,
                  List.append_nil, List.nil_append]
                exact cA'
              · simp only [tradesOf_append, tradesOf_matched,
                  tradesOf_single_received, tradesOf_single_accepted,
                  tradesOf_single_partial, tradesOf_single_cancelled,
                  List.append_nil, List.nil_append]
                exact cB' m
            | goodTillDate =>
              rw [htif] at h
              simp only [Option.some.injEq] at h
              subst h
              refine ⟨?_, fun m hmne => ?_⟩
              · simp only [tradesOf_append, tradesOf_matched,
                  tradesOf_single_received, tradesOf_single_accepted,
                  tradesOf_single_partial, List.append_nil, List.nil_append]
                exact cA'
              · simp only [tradesOf_append, tradesOf_matched,
                  tradesOf_single_received, tradesOf_single_accepted,
                  tradesOf_single_partial, List.append_nil, List.nil_append]
                exact cB' m
          · rw [if_neg hpart] at h
            split at h
            · cases h
            · rename_i e3 hab
              split at h
              · cases h
              · rename_i p hp
                simp only [Option.some.injEq] at h
                subst h
                have hst : e3.store = store2 ++ [taker2] :=
                  (MatchingEngine.add_to_book_store _ _ _ hab).trans rfl
                refine ⟨?_, fun m hmne => ?_⟩
                · simp only [tradesOf_append, tradesOf_matched,
                    tradesOf_single_received, tradesOf_single_accepted,
                    tradesOf_single_added, List.append_nil, List.nil_append]
                  exact cA'
                · have hm2 : m ≠ taker2.id := by rw [cid']; exact hmne
                  simp only [tradesOf_append, tradesOf_matched,
                    tradesOf_single_received, tradesOf_single_accepted,
                    tradesOf_single_added, List.append_nil, List.nil_append]
                  rw [hst, Store.filledOf_append_ne store2 taker2 m hm2]
                  exact cB' m
    | sell =>
      rw [hside] at h
      simp only at h
      split at h
      · cases h
      · rename_i store2 taker2 opp2 trades hra
        obtain ⟨cA, cB, cid⟩ :=
          run_algorithm_conservation fuel e.algorithm e.store _ _ _ hm
            (by exact hmax) hra
        have cA' : sumQ trades = taker2.filled_quantity - order.filled_quantity := cA
        have cB' : ∀ m, makerSum m trades
            = store2.filledOf m - e.store.filledOf m := cB
        have cid' : taker2.id = order.id := cid
        by_cases hfull : taker2.remaining_quantity = 0 ∧ 0 < taker2.filled_quantity
        · rw [if_pos hfull] at h
          simp only [Option.some.injEq] at h
          subst h
          refine ⟨?_, fun m hmne => ?_⟩
          · simp only [tradesOf_append, tradesOf_matched, tradesOf_single_received,
              tradesOf_single_accepted, tradesOf_single_filled,
              List.append_nil, List.nil_append]
            exact cA'
          · simp only [tradesOf_append, tradesOf_matched, tradesOf_single_received,
              tradesOf_single_accepted, tradesOf_single_filled,
              List.append_nil, List.nil_append]
            exact cB' m
        · rw [if_neg hfull] at h
          by_cases hpart : 0 < taker2.filled_quantity
          · rw [if_pos hpart] at h
            cases htif : order.time_in_force with
            | goodTillCancel =>
              rw [htif] at h
              simp only at h
              split at h
              · cases h
              · rename_i e3 hab
                split at h
                · cases h
                · rename_i p hp
                  simp only [Option.some.injEq] at h
                  subst h
                  have hst : e3.store = store2 ++ [taker2] :=
                    (MatchingEngine.add_to_book_store _ _ _ hab).trans rfl
                  refine ⟨?_, fun m hmne => ?_⟩
                  · simp only [tradesOf_append, tradesOf_matched,
                      tradesOf_single_received, tradesOf_single_accepted,
                      tradesOf_single_partial, tradesOf_single_added,
                      List.append_nil, List.nil_append]
                    exact cA'
                  · have hm2 : m ≠ taker2.id := by rw [cid']; exact hmne
                    simp only [tradesOf_append, tradesOf_matched,
                      tradesOf_single_received, tradesOf_single_accepted,
                      tradesOf_single_partial, tradesOf_single_added,
                      List.append_nil, List.nil_append]
                    rw [hst, Store.filledOf_append_ne store2 taker2 m hm2]
                    exact cB' m
            | immediateOrCancel =>
              rw [htif] at h
              simp only [Option.some.injEq] at h
              subst h
              refine ⟨?_, fun m hmne => ?_⟩
              · simp only [tradesOf_append, tradesOf_matched,
                  tradesOf_single_received, tradesOf_single_accepted,
                  tradesOf_single_partial, tradesOf_single_cancelled,
                  List.append_nil, List.nil_append]
                exact cA'
              · simp only [tradesOf_append, tradesOf_matched,
                  tradesOf_single_received, tradesOf_single_accepted,
                  tradesOf_single_partial, tradesOf_single_cancelled,
                  List.append_nil, List.nil_append]
                exact cB' m
            | fillOrKill =>
              rw [htif] at h
              simp only [Option.some.injEq] at h
              subst h
              refine ⟨?_, fun m hmne => ?_⟩
              · simp only [tradesOf_append, tradesOf_matched,
                  tradesOf_single_received, tradesOf_single_accepted,
                  tradesOf_single_partial, tradesOf_single_cancelled,
                  List.append_nil, List.nil_append]
                exact cA'
              · simp only [tradesOf_append, tradesOf_matched,
                  tradesOf_single_received, tradesOf_single_accepted,
                  tradesOf_single_partial, tradesOf_single_cancelled,
                  List.append_nil, List.nil_append]
                exact cB' m
            | goodTillDate =>
              rw [htif] at h
              simp only [Option.some.injEq] at h
              subst h
              refine ⟨?_, fun m hmne => ?_⟩
              · simp only [tradesOf_append, tradesOf_matched,
                  tradesOf_single_received, tradesOf_single_accepted,
                  tradesOf_single_partial, List.append_nil, List.nil_append]
                exact cA'
              · simp only [tradesOf_append, tradesOf_matched,
                  tradesOf_single_received, tradesOf_single_accepted,
                  tradesOf_single_partial, List.append_nil, List.nil_append]
                exact cB' m
          · rw [if_neg hpart] at h
            split at h
            · cases h
            · rename_i e3 hab
              split at h
              · cases h
              · rename_i p hp
                simp only [Option.some.injEq] at h
                subst h
                have hst : e3.store = store2 ++ [taker2] :=
                  (MatchingEngine.add_to_book_store _ _ _ hab).trans rfl
                refine ⟨?_, fun m hmne => ?_⟩
                · simp only [tradesOf_append, tradesOf_matched,
                    tradesOf_single_received, tradesOf_single_accepted,
                    tradesOf_single_added, List.append_nil, List.nil_append]
                  exact cA'
                · have hm2 : m ≠ taker2.id := by rw [cid']; exact hmne
                  simp only [tradesOf_append, tradesOf_matched,
                    tradesOf_single_received, tradesOf_single_accepted,
                    tradesOf_single_added, List.append_nil, List.nil_append]
                  rw [hst, Store.filledOf_append_ne store2 taker2 m hm2]
                  exact cB' m

/-- A resting sell maker for the C2 witness scenario (limit 50000.0 at
scale 9, quantity 2.0). -/
def C2maker : Order :=
  Order.new 1 100 Side.sell OrderType.limit (some 50000000000000) 2000000000
    TimeInForce.goodTillCancel

/-- The engine after the maker rests: price/time algorithm, one ask. -/
def C2engine : MatchingEngine :=
  (((MatchingEngine.new (MatchingAlgorithmType.priceTime true)).submit_order
      10 C2maker).map (·.1)).getD (MatchingEngine.new (MatchingAlgorithmType.priceTime true))

/-- The incoming buy taker for the C2 witness scenario (limit 50000.0,
quantity 1.0): it partially fills the maker. -/
def C2taker : Order :=
  Order.new 2 200 Side.buy OrderType.limit (some 50000000000000) 1000000000
    TimeInForce.goodTillCancel

/-- The concrete result of submitting the taker. -/
def C2out : MatchingEngine × Order × List OrderEvent :=
  (C2engine.submit_order 10 C2taker).getD (C2engine, C2taker, [])

/-- Witness for C2: the concrete partial-fill scenario above satisfies both
hypotheses and both conservation equations. -/
theorem C2_submit_conservation_witness :
    sumQ (tradesOf C2out.2.2) = C2out.2.1.filled_quantity - C2taker.filled_quantity
    ∧ ∀ m, m ≠ C2taker.id →
        makerSum m (tradesOf C2out.2.2)
          = C2out.1.store.filledOf m - C2engine.store.filledOf m :=
  C2_submit_conservation 10 C2engine C2taker C2out (by decide) (by decide) (by rfl)

/-- C5: on a level whose eligible orders (remaining ≥ minimum quantity)
have positive total `E`, pro-rata allocation gives each eligible order with
remaining `r` exactly `floor(r*q/E)` — the product is exact (the `i128`
intermediate) and the truncating division coincides with the floor here —
and the remainder `q - Σ allocations` is added to the first eligible order
in insertion order, the ineligible orders being re-queued first.  The
hypotheses `0 ≤ minq` (enforced by `OrderBookConfig::validate`) and
`0 ≤ q ≤ i64Max` (the taker's remaining `i64` quantity under the outer
loop's positivity guard) are the states reachable in the engine. -/
theorem C5_pro_rata_allocation (minq : Int) (store : Store) (queue : List Nat)
    (q : Int) (hm : 0 ≤ minq) (hq : 0 ≤ q) (hqMax : q ≤ i64Max)
    (hE : 0 < (pr_drain minq store queue).2.2) :
    calculate_allocation minq store queue q
      = (bump_head
          ((pr_drain minq store queue).1.map
            (fun p => (p.1, Int.fdiv (p.2 * q) (pr_drain minq store queue).2.2)))
          (q - (((pr_drain minq store queue).1.map
            (fun p => Int.fdiv (p.2 * q) (pr_drain minq store queue).2.2)).sum)),
         (pr_drain minq store queue).2.1
           ++ (pr_drain minq store queue).1.map (·.1)) := by
  rw [calculate_allocation_spec minq store queue q hm hq hqMax hE]
  simp only [Int.fdiv_eq_ediv _ (le_of_lt hE)]

/-- Two resting sell orders (remaining 3 and 5) for the C5 witness. -/
def C5store : Store :=
  [Order.new 1 100 Side.sell OrderType.limit (some 50) 3 TimeInForce.goodTillCancel,
   Order.new 2 200 Side.sell OrderType.limit (some 50) 5 TimeInForce.goodTillCancel]

/-- Witness for C5 at minimum quantity 0, fill quantity 4, eligible total
8: floors are 1 and 2, the remainder 1 goes to the first eligible order. -/
theorem C5_pro_rata_allocation_witness :
    calculate_allocation 0 C5store [1, 2] 4
      = (bump_head
          ((pr_drain 0 C5store [1, 2]).1.map
            (fun p => (p.1, Int.fdiv (p.2 * 4) (pr_drain 0 C5store [1, 2]).2.2)))
          (4 - (((pr_drain 0 C5store [1, 2]).1.map
            (fun p => Int.fdiv (p.2 * 4) (pr_drain 0 C5store [1, 2]).2.2)).sum)),
         (pr_drain 0 C5store [1, 2]).2.1
           ++ (pr_drain 0 C5store [1, 2]).1.map (·.1)) :=
  C5_pro_rata_allocation 0 C5store [1, 2] 4 (by decide) (by decide) (by decide)
    (by decide)

/-- C4 (amended): when a popped maker is only partially filled
(`0 < taker.remaining < maker.remaining`), the FIFO pop loop pushes it back
onto the **tail** of the level queue — `SegQueue::push` appends — so the
maker loses its time priority to every order queued behind it, and the
level step terminates. -/
theorem C4_partial_maker_requeued_at_tail
    (store : Store) (taker maker : Order) (mid : Nat) (rest : List Nat)
    (total : Int) (trades : List Trade) (p : Int)
    (hg : store.get? mid = some maker) (hp : maker.price = some p)
    (h0 : 0 < taker.remaining_quantity)
    (hlt : taker.remaining_quantity < maker.remaining_quantity) :
    pt_pop_loop store taker (mid :: rest) total trades
      = some ((store.try_fill mid taker.remaining_quantity).1,
              (taker.try_fill taker.remaining_quantity).1,
              rest ++ [mid],
              total - taker.remaining_quantity,
              trades ++ [⟨mid, taker.id, p, taker.remaining_quantity⟩]) := by
  have hz : ¬ maker.remaining_quantity = 0 := by
    intro he
    rw [he] at hlt
    linarith
  have htq : min taker.remaining_quantity maker.remaining_quantity
      = taker.remaining_quantity := min_eq_left (le_of_lt hlt)
  have hmid : maker.id = mid := Store.get?_id store mid maker hg
  have hr2m : (maker.try_fill taker.remaining_quantity).2 = true :=
    Order.try_fill_snd_true maker _ (le_of_lt hlt)
  have h1 : (store.try_fill mid taker.remaining_quantity).2 = true := by
    unfold Store.try_fill
    rw [hg]
    exact hr2m
  have h2 : (taker.try_fill taker.remaining_quantity).2 = true :=
    Order.try_fill_snd_true taker _ (le_refl _)
  have hset : (store.try_fill mid taker.remaining_quantity).1.get? mid
      = some ((maker.try_fill taker.remaining_quantity).1) := by
    unfold Store.try_fill
    rw [hg]
    simp only
    rw [if_pos hr2m]
    exact Store.get?_set_eq store _ mid
      ((Order.try_fill_id maker _).trans hmid) maker hg
  have hpos2 : 0 < ((maker.try_fill taker.remaining_quantity).1).remaining_quantity := by
    rw [Order.try_fill_true maker _ (not_lt.mpr (le_of_lt hlt))]
    show 0 < maker.remaining_quantity - taker.remaining_quantity
    linarith
  simp only [pt_pop_loop, hg]
  rw [if_neg hz]
  simp only [htq]
  rw [if_pos h1, if_pos h2, hp]
  simp only
  split
  · rfl
  · rename_i hcc
    rw [hset] at hcc
    exact absurd hpos2 hcc

/-- The single resting maker for the C4 witness (remaining 5). -/
def C4wMaker : Order :=
  Order.new 1 100 Side.sell OrderType.limit (some 50) 5 TimeInForce.goodTillCancel

/-- The heap of the C4 witness. -/
def C4wStore : Store := [C4wMaker]

/-- The taker of the C4 witness (remaining 2 < 5). -/
def C4wTaker : Order :=
  Order.new 2 200 Side.buy OrderType.limit (some 50) 2 TimeInForce.goodTillCancel

/-- Witness for the amended C4: with another id `5` queued behind the
maker, the partially filled maker ends up behind it, at the tail. -/
theorem C4_partial_maker_requeued_at_tail_witness :
    pt_pop_loop C4wStore C4wTaker [1, 5] 7 []
      = some ((C4wStore.try_fill 1 C4wTaker.remaining_quantity).1,
              (C4wTaker.try_fill C4wTaker.remaining_quantity).1,
              [5] ++ [1],
              7 - C4wTaker.remaining_quantity,
              [] ++ [⟨1, C4wTaker.id, 50, C4wTaker.remaining_quantity⟩]) :=
  C4_partial_maker_requeued_at_tail C4wStore C4wTaker C4wMaker 1 [5] 7 [] 50
    (by rfl) (by rfl) (by decide) (by decide)

/-- A fresh price/time engine, the starting point of the concrete
scenarios. -/
def freshPT : MatchingEngine := MatchingEngine.new (MatchingAlgorithmType.priceTime true)

/-- C1 scenario: a resting sell maker (id 1, limit 50000.0 × 2.0 at scale
9). -/
def C1maker : Order :=
  Order.new 1 100 Side.sell OrderType.limit (some 50000000000000) 2000000000
    TimeInForce.goodTillCancel

/-- The engine with the C1 maker resting. -/
def C1engine : MatchingEngine :=
  ((freshPT.submit_order 10 C1maker).map (·.1)).getD freshPT

/-- The C1 engine after `cancel_order 1`, with the emitted event. -/
def C1cancel : MatchingEngine × Option OrderEvent := C1engine.cancel_order 1

/-- The C1 taker (id 2, buy limit 50000.0 × 1.0) submitted after the
cancellation. -/
def C1taker : Order :=
  Order.new 2 200 Side.buy OrderType.limit (some 50000000000000) 1000000000
    TimeInForce.goodTillCancel

/-- The result of submitting the C1 taker into the post-cancel engine. -/
def C1out : MatchingEngine × Order × List OrderEvent :=
  (C1cancel.1.submit_order 10 C1taker).getD (C1cancel.1, C1taker, [])

/-- C1: terminal states are **not** absorbing in the code.  After
`cancel_order 1` succeeds (event emitted, state `Cancelled`), a later
`submit_order` still produces a trade with order 1 as maker — `try_fill`
checks only the remaining quantity, never the state — and overwrites the
cancelled state with `PartiallyFilled`. -/
theorem C1_cancelled_maker_still_fills :
    C1cancel.2 = some (OrderEvent.orderCancelled 1)
    ∧ (C1cancel.1.store.get? 1).map (·.state) = some OrderState.cancelled
    ∧ tradesOf C1out.2.2 = [⟨1, 2, 50000000000000, 1000000000⟩]
    ∧ (C1out.1.store.get? 1).map (·.state) = some OrderState.partiallyFilled :=
  ⟨rfl, rfl, rfl, rfl⟩

/-- C3 scenario: the S3 order — buy limit 50000.0 × 5.0,
immediate-or-cancel — submitted into an engine with empty asks. -/
def C3order : Order :=
  Order.new 1 100 Side.buy OrderType.limit (some 50000000000000) 5000000000
    TimeInForce.immediateOrCancel

/-- The result of submitting the C3 order into the fresh engine. -/
def C3out : MatchingEngine × Order × List OrderEvent :=
  (freshPT.submit_order 10 C3order).getD (freshPT, C3order, [])

/-- C3: an IOC order that matches nothing is **not** cancelled — the
zero-fill branch of `submit_order` adds the order to the book regardless of
its time in force: no trades, final state `Accepted` (not `Cancelled`), the
bid book holds the order, and the last event is `OrderAddedToBook`. -/
theorem C3_ioc_rests_on_book :
    tradesOf C3out.2.2 = []
    ∧ C3out.2.1.state = OrderState.accepted
    ∧ C3out.1.bids.levels = [⟨50000000000000, [1], 5000000000⟩]
    ∧ C3out.2.2.getLast?
        = some (OrderEvent.orderAddedToBook 1 50000000000000 5000000000) :=
  ⟨rfl, rfl, rfl, rfl⟩

/-- C4 counterexample scenario: two sell makers at the same price (id 1
remaining 2.0 queued first, id 2 remaining 1.0 behind), then two buy takers
of 1.0 each. -/
def C4maker1 : Order :=
  Order.new 1 100 Side.sell OrderType.limit (some 50000000000000) 2000000000
    TimeInForce.goodTillCancel

/-- Second maker of the C4 counterexample. -/
def C4maker2 : Order :=
  Order.new 2 101 Side.sell OrderType.limit (some 50000000000000) 1000000000
    TimeInForce.goodTillCancel

/-- The C4 engine with both makers resting, queue `[1, 2]`. -/
def C4engine : MatchingEngine :=
  ((((freshPT.submit_order 10 C4maker1).map (·.1)).getD freshPT).submit_order
      10 C4maker2).map (·.1) |>.getD freshPT

/-- First taker of the C4 counterexample. -/
def C4taker1 : Order :=
  Order.new 3 200 Side.buy OrderType.limit (some 50000000000000) 1000000000
    TimeInForce.goodTillCancel

/-- The engine and events after the first C4 taker partially fills
maker 1. -/
def C4out1 : MatchingEngine × Order × List OrderEvent :=
  (C4engine.submit_order 10 C4taker1).getD (C4engine, C4taker1, [])

/-- Second taker of the C4 counterexample. -/
def C4taker2 : Order :=
  Order.new 4 201 Side.buy OrderType.limit (some 50000000000000) 1000000000
    TimeInForce.goodTillCancel

/-- The result of the second C4 taker. -/
def C4out2 : MatchingEngine × Order × List OrderEvent :=
  (C4out1.1.submit_order 10 C4taker2).getD (C4out1.1, C4taker2, [])

/-- C4 counterexample: the first taker partially fills maker 1
(remaining 1.0 > 0), after which the level queue is `[2, 1]` — maker 1 was
pushed to the **tail**, not the head — and the next taker crossing the
level matches maker 2, which had been queued behind maker 1. -/
theorem C4_head_pushback_counterexample :
    (tradesOf C4out1.2.2).map (·.maker_order_id) = [1]
    ∧ C4out1.1.asks.levels = [⟨50000000000000, [2, 1], 2000000000⟩]
    ∧ (tradesOf C4out2.2.2).map (·.maker_order_id) = [2] :=
  ⟨rfl, rfl, rfl⟩

/-- C6 scenario: a dark-pool configuration (instrument `"D"`). -/
def C6config : OrderBookConfig := OrderBookConfig.dark_pool [Char.ofNat 68]

/-- The engine with one sell maker resting, built exactly as
`create_from_config C6config` builds it (second conjunct of the
theorem). -/
def C6engine : MatchingEngine :=
  ((freshPT.submit_order 10 C1maker).map (·.1)).getD freshPT

/-- C6: the configured `order_book_type` is **not** enforced at snapshot
time.  The factory drops the field — a DarkPool configuration yields
exactly the same engine as any other — and `get_snapshot` reads the plain
aggregate depth: the ask ladder of the dark-pool engine is the full resting
quantity, not empty. -/
theorem C6_dark_pool_snapshot_not_enforced :
    C6config.order_book_type = OrderBookType.darkPool
    ∧ create_from_config C6config = Except.ok freshPT
    ∧ (C6engine.get_snapshot 10).asks = [(50000000000000, 2000000000)]
    ∧ (C6engine.get_snapshot 10).asks ≠ [] :=
  ⟨rfl, rfl, rfl, by decide⟩

/-- C7 scenario: a market buy order with no price. -/
def C7order : Order :=
  Order.new 1 100 Side.buy OrderType.market none 1000000000
    TimeInForce.goodTillCancel

/-- C7: `submit_order` is not total — the priceless market order passes
validation (only quantity positivity and the limit-price rules are
checked), matches nothing against the empty opposite side, reaches the
rest-on-book branch, and the `order.price.unwrap()` there panics (`none` in
the embedding). -/
theorem C7_market_order_rest_panics :
    validate_order C7order = none
    ∧ freshPT.submit_order 10 C7order = none :=
  ⟨rfl, rfl⟩

/-- C8 (amended): the snapshot's `spread` field equals
`best_ask - best_bid` whenever both sides are non-empty and the difference
fits in `i64` (it is `i64::checked_sub` on the raw values); the invariant
`best_bid ≤ best_ask` is **not** maintained (see the counterexample). -/
theorem C8_spread_formula (bids asks : List (Int × Int)) (b qb a qa : Int)
    (hb : bids.head? = some (b, qb)) (ha : asks.head? = some (a, qa))
    (hlo : i64Min ≤ a - b) (hhi : a - b ≤ i64Max) :
    (OrderBookSnapshot.with_depth bids asks).spread = some (a - b) := by
  unfold OrderBookSnapshot.with_depth
  simp only [hb, ha]
  unfold i64CheckedSub
  rw [if_pos ⟨hlo, hhi⟩]

/-- Witness for the amended C8 spread formula on a concrete book. -/
theorem C8_spread_formula_witness :
    (OrderBookSnapshot.with_depth [((2 : Int), (1 : Int))] [((5 : Int), (3 : Int))]).spread
      = some (5 - 2) :=
  C8_spread_formula [(2, 1)] [(5, 3)] 2 1 5 3 (by rfl) (by rfl) (by decide)
    (by decide)

/-- C8 counterexample scenario: a pro-rata engine with minimum quantity
2.0; a sell maker of 1.0 rests at 50000.0 (below the minimum, hence
ineligible), and a buy taker at 50100.0 × 1.0 crosses it. -/
def C8maker : Order :=
  Order.new 1 100 Side.sell OrderType.limit (some 50000000000000) 1000000000
    TimeInForce.goodTillCancel

/-- The pro-rata engine of the C8 counterexample with the maker resting. -/
def C8engine : MatchingEngine :=
  (((MatchingEngine.new (MatchingAlgorithmType.proRata 2000000000 false)).submit_order
      10 C8maker).map (·.1)).getD
    (MatchingEngine.new (MatchingAlgorithmType.proRata 2000000000 false))

/-- The crossing buy taker of the C8 counterexample. -/
def C8taker : Order :=
  Order.new 2 200 Side.buy OrderType.limit (some 50100000000000) 1000000000
    TimeInForce.goodTillCancel

/-- The engine after the crossing taker rests. -/
def C8out : MatchingEngine × Order × List OrderEvent :=
  (C8engine.submit_order 10 C8taker).getD (C8engine, C8taker, [])

/-- The snapshot of the crossed book. -/
def C8snap : OrderBookSnapshot := C8out.1.get_snapshot 10

/-- C8 counterexample: the maker is ineligible for pro-rata allocation
(remaining 1.0 < minimum 2.0), so the crossing taker fills nothing and
rests on the bid side above the ask: the snapshot has
`best_bid = 50100.0 > best_ask = 50000.0` and a negative spread. -/
theorem C8_crossed_book_counterexample :
    tradesOf C8out.2.2 = []
    ∧ C8snap.best_bid = some 50100000000000
    ∧ C8snap.best_ask = some 50000000000000
    ∧ C8snap.spread = some (-100000000000) :=
  ⟨rfl, rfl, rfl, rfl⟩

end MatchingEngine
